import Mathlib

/-!
# rclone S3 backend (`s3/s3.go`): a shallow embedding

Go strings are modelled as lists of characters, `time.Time` values as integers
(nanoseconds counted from the zero `time.Time`), nilable pointers and maps as
`Option`; the entries of the slices in a response are taken to be non-nil. Calls
to the S3 service go through a `Client` whose state is passed explicitly, and a
`World` records the requests sent and the errors counted. Loops without a bound
in the source (`Fs.list`) take a bound on their number of turns and report when
it is used up.
-/

namespace S3

/-- A Go `string`. -/
abbrev Str := List Char

/-- A `time.Time`, as nanoseconds counted from the zero `time.Time`. -/
abbrev Time := Int

/-- Go `error` values that occur in `s3.go`. -/
inductive Error where
  /-- Models `fmt.Errorf("Couldn't parse bucket out of s3 path %q", path)` -/
  | parse (path : Str)
  /-- Models `errors.New(msg)` -/
  | plain (msg : Str)
  /-- an `awserr.Error` with its `Code()` and `Message()` -/
  | aws (code : Str) (message : Str)
  /-- any other error value returned by the SDK (not an `awserr.Error`) -/
  | other (msg : Str)
  deriving DecidableEq, Repr

/-! ## Go standard library: `strings` -/

/-- Models `strings.HasPrefix(s, pre)`. -/
def hasPrefix (s pre : Str) : Bool := pre.isPrefixOf s

/-- Models `strings.HasSuffix(s, suf)`. -/
def hasSuffix (s suf : Str) : Bool := suf.isSuffixOf s

/-- Models `strings.trimLeftByte`: drop every leading `c`. -/
def trimLeftByte (s : Str) (c : Char) : Str := s.dropWhile (· == c)

/-- Models `strings.trimRightByte`: drop every trailing `c`. -/
def trimRightByte (s : Str) (c : Char) : Str := (s.reverse.dropWhile (· == c)).reverse

/-- Models `strings.Trim(s, cutset)` for a cutset of one ASCII character `c`. -/
def Trim (s : Str) (c : Char) : Str := trimLeftByte (trimRightByte s c) c

/-- Models `strings.ToLower(s)`: every rune is mapped through `unicode.ToLower`, which
is taken as the parameter `lowerRune`. -/
def ToLower (lowerRune : Char → Char) (s : Str) : Str := s.map lowerRune

/-- Models `strings.LastIndex(s, c)` for a one-character separator: the index of the
last `c` in `s`, or `-1`. -/
def LastIndex (s : Str) (c : Char) : Int :=
  if c ∈ s then (s.length : Int) - 1 - (s.reverse.indexOf c : Int) else -1

/-! ## Go standard library: `path` -/

/-- The inner loop of the `..` case of `path.Clean`, after `out.w--`:
`for out.w > dotdot && out.index(out.w) != '/' { out.w-- }`; returns the final `out.w`. -/
def backtrackLoop (buf : Str) (dotdot : Nat) : Nat → Nat
  | 0 => 0
  | w + 1 =>
    if w + 1 > dotdot ∧ buf.getD (w + 1) '/' ≠ '/' then backtrackLoop buf dotdot w else w + 1

/-- The main loop of `path.Clean`: `rest` is `path[r:]`, `out` the bytes written so far. -/
def cleanLoop (rooted : Bool) : Nat → Str → Str → Nat → Str
  | 0, _, out, _ => out
  | _ + 1, [], out, _ => out
  | fuel + 1, c :: r, out, dotdot =>
    if c = '/' then
      -- empty path element
      cleanLoop rooted fuel r out dotdot
    else if c = '.' ∧ (r = [] ∨ r.head? = some '/') then
      -- . element
      cleanLoop rooted fuel r out dotdot
    else if c = '.' ∧ r.head? = some '.' ∧ (r.tail = [] ∨ r.tail.head? = some '/') then
      -- .. element: remove to last /
      if out.length > dotdot then
        cleanLoop rooted fuel r.tail (out.take (backtrackLoop out dotdot (out.length - 1))) dotdot
      else if rooted = false then
        let out1 := (if out.length > 0 then out ++ ['/'] else out) ++ ['.', '.']
        cleanLoop rooted fuel r.tail out1 out1.length
      else
        cleanLoop rooted fuel r.tail out dotdot
    else
      -- real path element: add slash if needed, copy element
      let out1 := if (rooted = true ∧ out.length ≠ 1) ∨ (rooted = false ∧ out.length ≠ 0)
        then out ++ ['/'] else out
      cleanLoop rooted fuel ((c :: r).dropWhile (· != '/'))
        (out1 ++ (c :: r).takeWhile (· != '/')) dotdot

/-- Models `path.Clean(p)`. -/
def path.Clean (p : Str) : Str :=
  if p = [] then ['.'] else
  let rooted : Bool := p.head? = some '/'
  let out := if rooted then cleanLoop rooted p.length p.tail ['/'] 1
             else cleanLoop rooted p.length p [] 0
  if out.length = 0 then ['.'] else out

/-- Models `path.Split(p)`. -/
def path.Split (p : Str) : Str × Str :=
  let i := LastIndex p '/'
  (p.take (i + 1).toNat, p.drop (i + 1).toNat)

/-- Models `path.Base(p)`. -/
def path.Base (p : Str) : Str :=
  if p = [] then ['.'] else
  -- Strip trailing slashes.
  let p := trimRightByte p '/'
  -- Find the last element
  let i := LastIndex p '/'
  let p := if i ≥ 0 then p.drop (i + 1).toNat else p
  -- If empty now, it had only slashes.
  if p = [] then ['/'] else p

/-- Models `path.Dir(p)`. -/
def path.Dir (p : Str) : Str := path.Clean (path.Split p).1

/-! ## Regular expressions of `s3.go` -/

/-- The class `[0-9a-f]`. -/
def isLowerHex (c : Char) : Bool := ('0' ≤ c ∧ c ≤ '9') ∨ ('a' ≤ c ∧ c ≤ 'f')

/-- Matching `cls{n}` at the head of the text: consumes exactly `n` characters of
the class and returns the rest of the text. -/
def matchRepeat (cls : Char → Bool) : Nat → Str → Option Str
  | 0, s => some s
  | _ + 1, [] => none
  | n + 1, c :: s => if cls c then matchRepeat cls n s else none

/-- Models `matchMd5.MatchString`, for `matchMd5 = regexp.MustCompile("^[0-9a-f]{32}$")`:
32 characters of the class from the start of the text, then the end of the text. -/
def matchMd5 (s : Str) : Bool :=
  match matchRepeat isLowerHex 32 s with
  | some [] => true
  | _ => false

/-- The tail `(.*)$` of the path pattern: `.` matches any character but a newline,
and `$` only the end of the text, so the group is the whole remaining text or nothing. -/
def dotStarToEnd (s : Str) : Option Str :=
  if s.all (· != '\n') then some s else none

/-- Backtracking over the greedy `([^/]*)`: group 1 is tried with `n` characters,
then with fewer, until `(.*)$` matches what is left. -/
def matcherFrom (path : Str) : Nat → Option (Str × Str)
  | 0 => (dotStarToEnd path).map fun g2 => ([], g2)
  | n + 1 =>
    match dotStarToEnd (path.drop (n + 1)) with
    | some g2 => some (path.take (n + 1), g2)
    | none => matcherFrom path n

/-- Models `matcher.FindStringSubmatch`, for `matcher = regexp.MustCompile("^([^/]*)(.*)$")`:
the two groups of the leftmost-first match, `none` when there is no match. The
class `[^/]` matches a newline, `.` does not. -/
def matcher (path : Str) : Option (Str × Str) :=
  matcherFrom path (path.takeWhile (· != '/')).length

/-! ## Path resolver -/

/-- Models `s3ParsePath(path)`: the triple `(bucket, directory, err)`. -/
def s3ParsePath (path : Str) : Str × Str × Option Error :=
  match matcher path with
  | none => ([], [], some (Error.parse path))
  | some (p1, p2) => (p1, Trim p2 '/', none)

/-! ## The SDK's request and response types -/

/-- Models `s3.Object`: every field is a pointer. -/
structure S3Object where
  Key : Option Str
  ETag : Option Str
  Size : Option Int
  LastModified : Option Time
  deriving DecidableEq, Repr

/-- Models `s3.CommonPrefix`. -/
structure CommonPrefix where
  Prefix : Option Str
  deriving DecidableEq, Repr

/-- Models `s3.ListObjectsInput`, the fields `Fs.list` sets. -/
structure ListObjectsInput where
  Bucket : Str
  Delimiter : Str
  Prefix : Str
  MaxKeys : Int
  Marker : Option Str
  deriving DecidableEq, Repr

/-- Models `s3.ListObjectsOutput`, the fields `Fs.list` reads. -/
structure ListObjectsOutput where
  CommonPrefixes : List CommonPrefix
  Contents : List S3Object
  IsTruncated : Option Bool
  NextMarker : Option Str
  deriving DecidableEq, Repr

/-- Models `s3.HeadObjectInput`. -/
structure HeadObjectInput where
  Bucket : Str
  Key : Str
  deriving DecidableEq, Repr

/-- A Go `map[string]*string`; the nil map is `none` one level up. -/
abbrev MetaMap := List (Str × Option Str)

/-- Models `s3.HeadObjectOutput`, the fields `readMetaData` reads. -/
structure HeadObjectOutput where
  ContentLength : Option Int
  ETag : Option Str
  LastModified : Option Time
  Metadata : Option MetaMap
  deriving DecidableEq, Repr

/-- Models `s3.CreateBucketInput`; `LocationConstraint` is the one field of the optional
`CreateBucketConfiguration`. -/
structure CreateBucketInput where
  Bucket : Str
  ACL : Str
  LocationConstraint : Option Str
  deriving DecidableEq, Repr

/-- Models `s3.Bucket`. -/
structure Bucket where
  Name : Option Str
  CreationDate : Option Time
  deriving DecidableEq, Repr

/-- The S3 service behind `f.c`, with its state `σ` passed explicitly. -/
structure Client (σ : Type) where
  HeadObject : σ → HeadObjectInput → Except Error HeadObjectOutput × σ
  ListObjects : σ → ListObjectsInput → Except Error ListObjectsOutput × σ
  CreateBucket : σ → CreateBucketInput → Option Error × σ
  ListBuckets : σ → Except Error (List Bucket) × σ

/-- Everything outside the adapter that `s3.go` touches: the provider's state,
the requests sent so far, the counter behind `fs.Stats.Error()` and the clock
behind `time.Now()`. -/
structure World (σ : Type) where
  provider : σ
  headLog : List HeadObjectInput
  listLog : List ListObjectsInput
  statsErrors : Nat
  now : Time

/-- Models `f.c.HeadObject(&req)`, recording the request. -/
def headObject {σ : Type} (c : Client σ) (w : World σ) (req : HeadObjectInput) :
    Except Error HeadObjectOutput × World σ :=
  let r := c.HeadObject w.provider req
  (r.1, { w with provider := r.2, headLog := w.headLog ++ [req] })

/-- Models `f.c.ListObjects(&req)`, recording the request. -/
def listObjects {σ : Type} (c : Client σ) (w : World σ) (req : ListObjectsInput) :
    Except Error ListObjectsOutput × World σ :=
  let r := c.ListObjects w.provider req
  (r.1, { w with provider := r.2, listLog := w.listLog ++ [req] })

/-- Models `fs.Stats.Error()`. -/
def statsError {σ : Type} (w : World σ) : World σ :=
  { w with statsErrors := w.statsErrors + 1 }

/-! ## Constants and the data model of `s3.go` -/

/-- Number of items to read at once. -/
def listChunkSize : Int := 1024

/-- Number of retries to make of operations. -/
def maxRetries : Nat := 10

/-- Models `credentials.Credentials` as chosen by `s3Connection`. -/
inductive Credentials where
  | anonymous
  | static (id secret token : Str)
  deriving DecidableEq, Repr

/-- What `s3Connection` configures: the `aws.Config` and the signing handler. -/
structure Connection where
  region : Str
  endpoint : Str
  auth : Credentials
  retries : Nat
  v2Signer : Bool
  deriving DecidableEq, Repr

/-- Models `fs.ConfigFile.MustValue(section, key)`. -/
abbrev ConfigFile := Str → Str → Str

/-- The type `Fs`, which represents a remote s3 server. -/
structure Fs where
  name : Str
  c : Connection
  bucket : Str
  perm : Str
  root : Str
  locationConstraint : Str
  deriving DecidableEq, Repr

/-- The type `Object`, which describes a s3 object; `meta` may be nil. -/
structure Object where
  fs : Fs
  remote : Str
  etag : Str
  bytes : Int
  lastModified : Time
  meta : Option MetaMap
  deriving DecidableEq, Repr

/-- Models `fs.Dir`, the fields `ListDir` sets. -/
structure Dir where
  Name : Str
  When : Time
  Bytes : Int
  Count : Int
  deriving DecidableEq, Repr

/-! ## Connection builder -/

/-- Models `s3Connection(name)`. -/
def s3Connection (cfg : ConfigFile) (name : Str) : Except Error Connection :=
  let accessKeyID := cfg name "access_key_id".toList
  let secretAccessKey := cfg name "secret_access_key".toList
  let auth : Except Error Credentials :=
    if accessKeyID = [] ∧ secretAccessKey = [] then .ok Credentials.anonymous
    else if accessKeyID = [] then .error (Error.plain "access_key_id not found".toList)
    else if secretAccessKey = [] then .error (Error.plain "secret_access_key not found".toList)
    else .ok (Credentials.static accessKeyID secretAccessKey [])
  match auth with
  | .error e => .error e
  | .ok auth =>
    let endpoint := cfg name "endpoint".toList
    let region := cfg name "region".toList
    let endpoint := if region = [] ∧ endpoint = [] then "https://s3.amazonaws.com/".toList
      else endpoint
    let region := if region = [] then "us-east-1".toList else region
    .ok { region := region, endpoint := endpoint, auth := auth, retries := maxRetries,
          v2Signer := decide (region = "other-v2-signature".toList) }

/-! ## Objects: metadata -/

/-- Models `Object.Md5sum`: the pair `(md5sum, err)`. -/
def Object.Md5sum (lowerRune : Char → Char) (o : Object) : Str × Option Error :=
  let etag := Trim (ToLower lowerRune o.etag) '"'
  if matchMd5 etag = false then ([], none) else (etag, none)

/-- Models `Object.Size`. -/
def Object.Size (o : Object) : Int := o.bytes

/-- Models `Object.readMetaData`: the returned error and the object afterwards. -/
def Object.readMetaData {σ : Type} (c : Client σ) (w : World σ) (o : Object) :
    Option Error × Object × World σ :=
  if o.meta ≠ none then (none, o, w) else
  let key := o.fs.root ++ o.remote
  let req : HeadObjectInput := { Bucket := o.fs.bucket, Key := key }
  match headObject c w req with
  | (.error err, w1) => (some err, o, w1)
  | (.ok resp, w1) =>
    -- Ignore missing Content-Length assuming it is 0
    let size : Int := match resp.ContentLength with
      | some n => n
      | none => 0
    let lastModified : Time := match resp.LastModified with
      | none => w1.now
      | some t => t
    (none, { o with etag := resp.ETag.getD [], bytes := size, meta := resp.Metadata,
                    lastModified := lastModified }, w1)

/-- Models `Fs.newFsObjectWithInfo`: `none` is the nil object returned on a failed probe. -/
def Fs.newFsObjectWithInfo {σ : Type} (c : Client σ) (w : World σ) (f : Fs) (remote : Str)
    (info : Option S3Object) : Option Object × World σ :=
  let o : Object := { fs := f, remote := remote, etag := [], bytes := 0, lastModified := 0,
                      meta := none }
  match info with
  | some info =>
    -- Set info but not meta
    let lastModified : Time := match info.LastModified with
      | none => w.now
      | some t => t
    (some { o with lastModified := lastModified, etag := info.ETag.getD [],
                   bytes := info.Size.getD 0 }, w)
  | none =>
    match o.readMetaData c w with
    | (some _, _, w1) => (none, w1)
    | (none, o1, w1) => (some o1, w1)

/-- Models `Fs.NewFsObject`. -/
def Fs.NewFsObject {σ : Type} (c : Client σ) (w : World σ) (f : Fs) (remote : Str) :
    Option Object × World σ :=
  f.newFsObjectWithInfo c w remote none

/-! ## Construction -/

/-- What `NewFs` returns on success: the `Fs` itself, or `fs.NewLimited(f, obj)`,
the view limited to one object (`obj` is nil when its probe failed). -/
inductive NewFsResult where
  | plain (f : Fs)
  | limited (f : Fs) (obj : Option Object)
  deriving DecidableEq, Repr

/-- The `Fs` inside the result of `NewFs`. -/
def NewFsResult.fs : NewFsResult → Fs
  | .plain f => f
  | .limited f _ => f

/-- Models `NewFs(name, root)`. -/
def NewFs {σ : Type} (cfg : ConfigFile) (c : Client σ) (w : World σ) (name root : Str) :
    Except Error NewFsResult × World σ :=
  match s3ParsePath root with
  | (_, _, some err) => (.error err, w)
  | (bucket, directory, none) =>
    match s3Connection cfg name with
    | .error err => (.error err, w)
    | .ok conn =>
      let f : Fs := { name := name, c := conn, bucket := bucket, perm := [], root := directory,
                      locationConstraint := cfg name "location_constraint".toList }
      if f.root ≠ [] then
        let f : Fs := { f with root := f.root ++ ['/'] }
        -- Check to see if the object exists
        let req : HeadObjectInput := { Bucket := f.bucket, Key := directory }
        match headObject c w req with
        | (.ok _, w1) =>
          let remote := path.Base directory
          let root1 := path.Dir directory
          let f : Fs := { f with root := if root1 = ['.'] then [] else root1 ++ ['/'] }
          let r := f.NewFsObject c w1 remote
          -- return a Fs Limited to this object
          (.ok (.limited f r.1), r.2)
        | (.error _, w1) => (.ok (.plain f), w1)
      else (.ok (.plain f), w)

/-! ## Listing engine -/

/-- How a call of `Fs.list` ends: it returns, it panics with an index out of
range, or the model's bound on the number of page requests is used up. -/
inductive Outcome where
  | returned
  | panicked
  | outOfFuel
  deriving DecidableEq, Repr

/-- The calls `fn(remote, object)` that `Fs.list` makes for one successful page. -/
def pageCalls (root : Str) (directories : Bool) (resp : ListObjectsOutput) :
    List (Str × S3Object) :=
  let rootLength := root.length
  if directories then
    resp.CommonPrefixes.filterMap fun commonPrefix =>
      match commonPrefix.Prefix with
      | none => none
      | some remote =>
        if hasPrefix remote root = false then none else
        let remote := remote.drop rootLength
        let remote := if hasSuffix remote ['/'] then remote.take (remote.length - 1) else remote
        some (remote, { Key := some remote, ETag := none, Size := none, LastModified := none })
  else
    resp.Contents.filterMap fun object =>
      let key := object.Key.getD []
      if hasPrefix key root = false then none else
      some (key.drop rootLength, object)

/-- What follows a successful page in `Fs.list`. -/
inductive Next where
  /-- Models `!aws.BoolValue(resp.IsTruncated)`: `break` -/
  | stop
  /-- the marker of the next request -/
  | marker (m : Option Str)
  /-- Models `resp.Contents[len(resp.Contents)-1]` on empty `Contents` -/
  | indexOutOfRange
  deriving DecidableEq, Repr

/-- The end of the loop body of `Fs.list`: truncation test and next marker. -/
def nextMarker (resp : ListObjectsOutput) : Next :=
  if resp.IsTruncated.getD false = false then Next.stop
  -- Use NextMarker if set, otherwise use last Key
  else if resp.NextMarker = none ∨ resp.NextMarker = some [] then
    match resp.Contents.getLast? with
    | none => Next.indexOutOfRange
    | some last => Next.marker last.Key
  else Next.marker resp.NextMarker

/-- The result of `Fs.list`: the calls of `fn` in order, the world afterwards and
how the call ended. -/
structure ListResult (σ : Type) where
  calls : List (Str × S3Object)
  world : World σ
  outcome : Outcome

/-- The `for` loop of `Fs.list`, run for at most `fuel` page requests. -/
def listLoop {σ : Type} (c : Client σ) (f : Fs) (directories : Bool) :
    Nat → Option Str → World σ → List (Str × S3Object) → ListResult σ
  | 0, _, w, calls => { calls := calls, world := w, outcome := Outcome.outOfFuel }
  | fuel + 1, marker, w, calls =>
    let req : ListObjectsInput :=
      { Bucket := f.bucket, Delimiter := if directories then ['/'] else [],
        Prefix := f.root, MaxKeys := listChunkSize, Marker := marker }
    match listObjects c w req with
    | (.error _, w1) =>
      { calls := calls, world := statsError w1, outcome := Outcome.returned }
    | (.ok resp, w1) =>
      let calls := calls ++ pageCalls f.root directories resp
      match nextMarker resp with
      | Next.stop => { calls := calls, world := w1, outcome := Outcome.returned }
      | Next.indexOutOfRange => { calls := calls, world := w1, outcome := Outcome.panicked }
      | Next.marker m => listLoop c f directories fuel m w1 calls

/-- Models `Fs.list(directories, fn)`, run for at most `fuel` page requests. -/
def Fs.list {σ : Type} (c : Client σ) (w : World σ) (f : Fs) (directories : Bool)
    (fuel : Nat) : ListResult σ :=
  listLoop c f directories fuel none w []

/-- The callback `Fs.ListDir` hands to `Fs.list`: the directory it sends for one call. -/
def dirOfCall (call : Str × S3Object) : Dir :=
  let size : Int := match call.2.Size with
    | some n => n
    | none => 0
  { Name := call.1, When := 0, Bytes := size, Count := 0 }

/-- The directories `Fs.ListDir` sends on its channel, in order. -/
def Fs.ListDir {σ : Type} (c : Client σ) (w : World σ) (f : Fs) (fuel : Nat) :
    List Dir × World σ × Outcome :=
  if f.bucket = [] then
    -- List the buckets
    match c.ListBuckets w.provider with
    | (.error _, p) => ([], statsError { w with provider := p }, Outcome.returned)
    | (.ok buckets, p) =>
      (buckets.map fun bucket =>
          { Name := bucket.Name.getD [], When := bucket.CreationDate.getD 0,
            Bytes := -1, Count := -1 },
        { w with provider := p }, Outcome.returned)
  else
    -- List the directories in the path in the bucket
    let r := f.list c w true fuel
    (r.calls.map dirOfCall, r.world, r.outcome)

/-! ## Bucket lifecycle -/

/-- Models `Fs.Mkdir`. -/
def Fs.Mkdir {σ : Type} (c : Client σ) (w : World σ) (f : Fs) : Option Error × World σ :=
  let req : CreateBucketInput :=
    { Bucket := f.bucket, ACL := f.perm,
      LocationConstraint := if f.locationConstraint ≠ [] then some f.locationConstraint else none }
  let r := c.CreateBucket w.provider req
  let w1 : World σ := { w with provider := r.2 }
  match r.1 with
  | some (Error.aws code message) =>
    if code = "BucketAlreadyOwnedByYou".toList then (none, w1)
    else (some (Error.aws code message), w1)
  | err => (err, w1)

/-- The objects `Fs.List` sends on its channel, in order. (Declared last: inside
`Fs.*` declarations that follow it, `List` would name this function.) -/
def Fs.List {σ : Type} (c : Client σ) (w : World σ) (f : Fs) (fuel : Nat) :
    List Object × World σ × Outcome :=
  if f.bucket = [] then
    -- Return no objects at top level list
    ([], statsError w, Outcome.returned)
  else
    let r := f.list c w false fuel
    (r.calls.filterMap fun call => (f.newFsObjectWithInfo c r.world call.1 (some call.2)).1,
      r.world, r.outcome)

/-! ## Provider models used to state the listing properties -/

/-- The order of keys in a bucket listing: lexicographic on the characters. -/
def keyLt : Str → Str → Bool
  | [], [] => false
  | [], _ :: _ => true
  | _ :: _, [] => false
  | a :: s, b :: t => if a < b then true else if a = b then keyLt s t else false

/-- The listing entry of a stored key. -/
def storedObject (key : Str) : S3Object :=
  { Key := some key, ETag := none, Size := none, LastModified := none }

/-- The keys strictly after the request's marker. -/
def keysAfter (marker : Option Str) (keys : List Str) : List Str :=
  match marker with
  | none => keys
  | some m => keys.filter fun k => keyLt m k

/-- A provider that stores `keys` (in ascending order) and answers a list request
with the next keys strictly after the marker, at most `pageSize` and at most
`MaxKeys` of them, flagging truncation exactly when more keys remain. With
`sendNextMarker` it also returns the last key of a truncated page as `NextMarker`. -/
def pagedProvider (keys : List Str) (pageSize : Nat) (sendNextMarker : Bool) : Client Unit where
  HeadObject := fun _ _ => (.error (Error.aws "NotFound".toList []), ())
  CreateBucket := fun _ _ => (none, ())
  ListBuckets := fun _ => (.ok [], ())
  ListObjects := fun _ req =>
    let rest := keysAfter req.Marker keys
    let page := rest.take (min pageSize req.MaxKeys.toNat)
    let truncated : Bool := page.length < rest.length
    (.ok { CommonPrefixes := [], Contents := page.map storedObject,
           IsTruncated := some truncated,
           NextMarker := if sendNextMarker ∧ truncated then page.getLast? else none }, ())

/-- The state of a scripted provider: the responses still to be given to
`HeadObject` and to `ListObjects` requests. -/
structure Script where
  heads : List (Except Error HeadObjectOutput)
  lists : List (Except Error ListObjectsOutput)

/-- A provider that answers the successive requests of each kind with the
successive entries of its script (and fails once the script is used up). -/
def scriptedProvider : Client Script where
  CreateBucket := fun s _ => (none, s)
  ListBuckets := fun s => (.ok [], s)
  HeadObject := fun s _ =>
    match s.heads with
    | [] => (.error (Error.other []), s)
    | r :: rest => (r, { s with heads := rest })
  ListObjects := fun s _ =>
    match s.lists with
    | [] => (.error (Error.other []), s)
    | r :: rest => (r, { s with lists := rest })

/-- A provider that stores objects under the given keys only: `HeadObject`
succeeds, with the response `resp`, exactly on those keys. -/
def headProvider (keys : List Str) (resp : HeadObjectOutput) : Client Unit where
  CreateBucket := fun _ _ => (none, ())
  ListBuckets := fun _ => (.ok [], ())
  ListObjects := fun _ _ => (.error (Error.other []), ())
  HeadObject := fun _ req =>
    if req.Key ∈ keys then (.ok resp, ()) else (.error (Error.aws "NotFound".toList []), ())

/-- Models the `cleanPath` of the SDK's REST request builder, which `s3Connection`
leaves switched on: the URL path of a request is passed through `path.Clean`, and
a final slash is kept. -/
def cleanPath (p : Str) : Str :=
  let hasSlash := hasSuffix p ['/']
  let q := path.Clean p
  if hasSlash = true ∧ hasSuffix q ['/'] = false then q ++ ['/'] else q

/-- A provider behind the SDK's REST request builder: a `HeadObject` request for
`Bucket` and `Key` goes out for the URL path `/Bucket/Key` after `cleanPath`, and
it succeeds, with the response `resp`, exactly when an object is stored under that
path (`paths` lists the stored objects as `/bucket/key`). -/
def cleaningProvider (paths : List Str) (resp : HeadObjectOutput) : Client Unit where
  CreateBucket := fun _ _ => (none, ())
  ListBuckets := fun _ => (.ok [], ())
  ListObjects := fun _ _ => (.error (Error.other []), ())
  HeadObject := fun _ req =>
    if cleanPath (['/'] ++ req.Bucket ++ ['/'] ++ req.Key) ∈ paths then (.ok resp, ())
    else (.error (Error.aws "NotFound".toList []), ())

/-- A provider whose `CreateBucket` answers every request with `resp` (`none` is
success). -/
def bucketProvider (resp : Option Error) : Client Unit where
  CreateBucket := fun _ _ => (resp, ())
  ListBuckets := fun _ => (.ok [], ())
  ListObjects := fun _ _ => (.error (Error.other []), ())
  HeadObject := fun _ _ => (.error (Error.aws "NotFound".toList []), ())

/-- A configuration file that holds the two credential fields and nothing else. -/
def keyConfig (accessKeyID secretAccessKey : Str) : ConfigFile := fun _ key =>
  if key = "access_key_id".toList then accessKeyID
  else if key = "secret_access_key".toList then secretAccessKey
  else []

/-- A response to `HeadObject` without any field set. -/
def emptyHead : HeadObjectOutput :=
  { ContentLength := none, ETag := none, LastModified := none, Metadata := none }

/-- The connection `s3Connection` builds from a configuration file without any value. -/
def defaultConnection : Connection :=
  { region := "us-east-1".toList, endpoint := "https://s3.amazonaws.com/".toList,
    auth := Credentials.anonymous, retries := 10, v2Signer := false }

/-- A world in which nothing has happened yet. -/
def World.start {σ : Type} (s : σ) (now : Time) : World σ :=
  { provider := s, headLog := [], listLog := [], statsErrors := 0, now := now }

/-- A configuration file without any value. -/
def emptyConfig : ConfigFile := fun _ _ => []

end S3

/-! # Properties -/

namespace S3

/-! ## Strings -/

theorem trimLeftByte_spec (s : Str) (c : Char) :
    ∃ l : Str, s = l ++ trimLeftByte s c ∧ (∀ x ∈ l, x = c) ∧
      (trimLeftByte s c).head? ≠ some c := by
  refine ⟨s.takeWhile (· == c), ?_, ?_, ?_⟩
  · exact (List.takeWhile_append_dropWhile _ s).symm
  · intro x hx
    simpa using List.mem_takeWhile_imp hx
  · intro h
    have := List.head?_dropWhile_not (· == c) s
    unfold trimLeftByte at h
    rw [h] at this
    simp at this

theorem trimRightByte_spec (s : Str) (c : Char) :
    ∃ r : Str, s = trimRightByte s c ++ r ∧ (∀ x ∈ r, x = c) ∧
      (trimRightByte s c).getLast? ≠ some c := by
  obtain ⟨l, h1, h2, h3⟩ := trimLeftByte_spec s.reverse c
  refine ⟨l.reverse, ?_, ?_, ?_⟩
  · have := congrArg List.reverse h1
    simpa [trimRightByte, trimLeftByte] using this
  · intro x hx
    exact h2 x (List.mem_reverse.mp hx)
  · simpa [trimRightByte, trimLeftByte, List.getLast?_reverse] using h3

theorem Trim_spec (s : Str) (c : Char) :
    ∃ l r : Str, s = l ++ Trim s c ++ r ∧ (∀ x ∈ l, x = c) ∧ (∀ x ∈ r, x = c) ∧
      (Trim s c).head? ≠ some c ∧ (Trim s c).getLast? ≠ some c := by
  obtain ⟨r, hr1, hr2, hr3⟩ := trimRightByte_spec s c
  obtain ⟨l, hl1, hl2, hl3⟩ := trimLeftByte_spec (trimRightByte s c) c
  refine ⟨l, r, ?_, hl2, hr2, hl3, ?_⟩
  · unfold Trim
    rw [← hl1]; exact hr1
  · unfold Trim
    intro h
    by_cases hd : trimLeftByte (trimRightByte s c) c = []
    · rw [hd] at h; simp at h
    · rw [hl1, List.getLast?_append_of_ne_nil _ hd] at hr3
      exact hr3 h

/-! ## Checksum -/

theorem char_eq_of_toNat (c : Char) (n : Nat) (h : c.toNat = n) : c = Char.ofNat n := by
  subst h; exact (Char.ofNat_toNat c).symm

theorem char_le_iff (a b : Char) : a ≤ b ↔ a.toNat ≤ b.toNat := by
  rw [Char.le_def]; exact Iff.rfl

theorem isLowerHex_mem (c : Char) (h : isLowerHex c = true) :
    c ∈ "0123456789abcdef".toList := by
  simp only [isLowerHex, Bool.decide_or, Bool.decide_and, Bool.or_eq_true, Bool.and_eq_true,
    decide_eq_true_eq, char_le_iff] at h
  have e0 : '0'.toNat = 48 := by decide
  have e9 : '9'.toNat = 57 := by decide
  have ea : 'a'.toNat = 97 := by decide
  have ef : 'f'.toNat = 102 := by decide
  rw [e0, e9, ea, ef] at h
  rcases h with ⟨h1, h2⟩ | ⟨h1, h2⟩
  · have : ∀ n, 48 ≤ n → n ≤ 57 → Char.ofNat n ∈ "0123456789abcdef".toList := by
      intro n a b; interval_cases n <;> decide
    rw [char_eq_of_toNat c _ rfl]; exact this _ h1 h2
  · have : ∀ n, 97 ≤ n → n ≤ 102 → Char.ofNat n ∈ "0123456789abcdef".toList := by
      intro n a b; interval_cases n <;> decide
    rw [char_eq_of_toNat c _ rfl]; exact this _ h1 h2

theorem isLowerHex_iff (c : Char) :
    isLowerHex c = true ↔ c ∈ "0123456789abcdef".toList := by
  constructor
  · exact isLowerHex_mem c
  · intro h
    simp only [String.toList, List.mem_cons] at h
    rcases h with h | h | h | h | h | h | h | h | h | h | h | h | h | h | h | h | h <;>
      first | (subst h; decide) | simp at h

theorem matchRepeat_nil_iff (cls : Char → Bool) (n : Nat) (s : Str) :
    matchRepeat cls n s = some [] ↔ s.length = n ∧ ∀ c ∈ s, cls c = true := by
  induction n generalizing s with
  | zero =>
    cases s with
    | nil => simp [matchRepeat]
    | cons a t => simp [matchRepeat]
  | succ n ih =>
    cases s with
    | nil => simp [matchRepeat]
    | cons a t =>
      by_cases ha : cls a = true
      · simp [matchRepeat, ha, ih]
      · simp [matchRepeat, ha]

theorem matchMd5_iff (s : Str) :
    matchMd5 s = true ↔ s.length = 32 ∧ ∀ c ∈ s, c ∈ "0123456789abcdef".toList := by
  have h := matchRepeat_nil_iff isLowerHex 32 s
  simp only [isLowerHex_iff] at h
  rw [← h]
  unfold matchMd5
  split
  · next heq => simp [heq]
  · next hne =>
    constructor
    · intro hf; cases hf
    · intro hs; exact absurd hs (hne)

/-- C1. `Object.Md5sum` never returns an error. With `s` the etag lowercased and
with every leading and trailing double quote removed (the lowercased etag is
`l ++ s ++ r` with `l`, `r` made of double quotes only, and `s` neither starts nor
ends with one), it returns `s` when `s` has exactly 32 characters, all from
`0-9a-f`, and the empty string otherwise; so a non-empty result is a
32-character lowercase hex string. -/
theorem Md5sum_spec (lowerRune : Char → Char) (o : Object) :
    (o.Md5sum lowerRune).2 = none ∧
    ∃ s l r : Str,
      s = Trim (ToLower lowerRune o.etag) '"' ∧
      ToLower lowerRune o.etag = l ++ s ++ r ∧
      (∀ x ∈ l, x = '"') ∧ (∀ x ∈ r, x = '"') ∧
      s.head? ≠ some '"' ∧ s.getLast? ≠ some '"' ∧
      ((s.length = 32 ∧ ∀ c ∈ s, c ∈ "0123456789abcdef".toList) →
        (o.Md5sum lowerRune).1 = s) ∧
      (¬ (s.length = 32 ∧ ∀ c ∈ s, c ∈ "0123456789abcdef".toList) →
        (o.Md5sum lowerRune).1 = []) ∧
      ((o.Md5sum lowerRune).1 ≠ [] →
        (o.Md5sum lowerRune).1.length = 32 ∧
        ∀ c ∈ (o.Md5sum lowerRune).1, c ∈ "0123456789abcdef".toList) := by
  obtain ⟨l, r, h1, h2, h3, h4, h5⟩ := Trim_spec (ToLower lowerRune o.etag) '"'
  have hm := matchMd5_iff (Trim (ToLower lowerRune o.etag) '"')
  refine ⟨?_, Trim (ToLower lowerRune o.etag) '"', l, r, rfl, h1, h2, h3, h4, h5, ?_, ?_, ?_⟩
  · unfold Object.Md5sum
    simp only []
    split <;> rfl
  · intro hs
    have := hm.mpr hs
    simp [Object.Md5sum, this]
  · intro hs
    have : matchMd5 (Trim (ToLower lowerRune o.etag) '"') = false := by
      rw [← Bool.not_eq_true, hm]; exact hs
    simp [Object.Md5sum, this]
  · intro hne
    by_cases hb : matchMd5 (Trim (ToLower lowerRune o.etag) '"') = true
    · have hv : (o.Md5sum lowerRune).1 = Trim (ToLower lowerRune o.etag) '"' := by
        simp [Object.Md5sum, hb]
      rw [hv]; exact hm.mp hb
    · exfalso; apply hne
      have : matchMd5 (Trim (ToLower lowerRune o.etag) '"') = false := by
        simpa using hb
      simp [Object.Md5sum, this]

/-- C1, for the quoted upper-case etag of the empty object: the checksum is the
etag in lower case without the quotes, and no error is returned. -/
theorem Md5sum_spec_witness :
    (Object.Md5sum Char.toLower
        (Object.mk (Fs.mk [] defaultConnection "bucket".toList [] [] []) "k".toList
          "\"D41D8CD98F00B204E9800998ECF8427E\"".toList 0 0 none)).2 = none ∧
    (Object.Md5sum Char.toLower
        (Object.mk (Fs.mk [] defaultConnection "bucket".toList [] [] []) "k".toList
          "\"D41D8CD98F00B204E9800998ECF8427E\"".toList 0 0 none)).1
      = "d41d8cd98f00b204e9800998ecf8427e".toList :=
  ⟨(Md5sum_spec Char.toLower
      (Object.mk (Fs.mk [] defaultConnection "bucket".toList [] [] []) "k".toList
        "\"D41D8CD98F00B204E9800998ECF8427E\"".toList 0 0 none)).1, by decide⟩

/-! ## Path resolver -/

theorem drop_length_takeWhile (p : Char → Bool) (s : Str) :
    s.drop (s.takeWhile p).length = s.dropWhile p := by
  have h := List.drop_left (s.takeWhile p) (s.dropWhile p)
  rwa [List.takeWhile_append_dropWhile] at h

theorem take_length_takeWhile (p : Char → Bool) (s : Str) :
    s.take (s.takeWhile p).length = s.takeWhile p := by
  have h := List.take_left (s.takeWhile p) (s.dropWhile p)
  rwa [List.takeWhile_append_dropWhile] at h

theorem dotStarToEnd_eq_some (s g : Str) (h : dotStarToEnd s = some g) : g = s := by
  unfold dotStarToEnd at h
  split at h
  · exact (Option.some.inj h).symm
  · cases h

theorem dotStarToEnd_eq_none_iff (s : Str) : dotStarToEnd s = none ↔ '\n' ∈ s := by
  unfold dotStarToEnd
  constructor
  · intro h
    split at h
    · cases h
    · next hn =>
      simp only [List.all_eq_true, bne_iff_ne, ne_eq, not_forall, Classical.not_imp,
        Decidable.not_not] at hn
      obtain ⟨x, hx, rfl⟩ := hn
      exact hx
  · intro h
    have : ¬ (s.all (· != '\n') = true) := by
      simp only [List.all_eq_true, bne_iff_ne, ne_eq, not_forall, Classical.not_imp,
        Decidable.not_not]
      exact ⟨'\n', h, rfl⟩
    simp [this]

theorem matcherFrom_of_some (path : Str) (n : Nat) (g : Str)
    (h : dotStarToEnd (path.drop n) = some g) :
    matcherFrom path n = some (path.take n, g) := by
  cases n with
  | zero =>
    simp only [List.drop_zero] at h
    simp [matcherFrom, h]
  | succ n => simp [matcherFrom, h]

theorem matcherFrom_of_none (path : Str) (n : Nat)
    (h : ∀ m, m ≤ n → dotStarToEnd (path.drop m) = none) :
    matcherFrom path n = none := by
  induction n with
  | zero =>
    have := h 0 (Nat.le_refl 0)
    simp only [List.drop_zero] at this
    simp [matcherFrom, this]
  | succ n ih =>
    have h1 := h (n + 1) (Nat.le_refl _)
    simp only [matcherFrom, h1]
    exact ih fun m hm => h m (Nat.le_succ_of_le hm)

/-- The two groups `matcher` finds: the longest slash-free start of the text and
the rest, provided the rest holds no newline. -/
theorem matcher_eq (path : Str) :
    matcher path =
      if '\n' ∈ path.dropWhile (· != '/') then none
      else some (path.takeWhile (· != '/'), path.dropWhile (· != '/')) := by
  unfold matcher
  by_cases hn : '\n' ∈ path.dropWhile (· != '/')
  · rw [if_pos hn]
    apply matcherFrom_of_none
    intro m hm
    rw [dotStarToEnd_eq_none_iff]
    rw [← drop_length_takeWhile] at hn
    have : path.drop (path.takeWhile (· != '/')).length
        = (path.drop m).drop ((path.takeWhile (· != '/')).length - m) := by
      rw [List.drop_drop]; congr 1; omega
    rw [this] at hn
    exact List.mem_of_mem_drop hn
  · rw [if_neg hn]
    have hs : dotStarToEnd (path.drop (path.takeWhile (· != '/')).length)
        = some (path.dropWhile (· != '/')) := by
      rw [drop_length_takeWhile]
      cases hd : dotStarToEnd (path.dropWhile (· != '/')) with
      | none => exact absurd ((dotStarToEnd_eq_none_iff _).mp hd) hn
      | some g => rw [dotStarToEnd_eq_some _ _ hd]
    rw [matcherFrom_of_some _ _ _ hs, take_length_takeWhile]

theorem s3ParsePath_eq (path : Str) :
    s3ParsePath path =
      if '\n' ∈ path.dropWhile (· != '/') then ([], [], some (Error.parse path))
      else (path.takeWhile (· != '/'), Trim (path.dropWhile (· != '/')) '/', none) := by
  unfold s3ParsePath
  rw [matcher_eq]
  by_cases h : '\n' ∈ path.dropWhile (· != '/')
  · simp only [if_pos h]
  · simp only [if_neg h]

theorem takeWhile_longest (path p : Str) (hp : p <+: path) (hs : '/' ∉ p) :
    p.length ≤ (path.takeWhile (· != '/')).length := by
  have hb : path.takeWhile (· != '/') <+: path := List.takeWhile_prefix _
  rcases List.prefix_or_prefix_of_prefix hp hb with h | h
  · exact h.length_le
  · obtain ⟨t, ht⟩ := h
    obtain ⟨u, hu⟩ := hp
    have hdw : path.dropWhile (· != '/') = t ++ u := by
      have h1 : path.takeWhile (· != '/') ++ path.dropWhile (· != '/')
          = path.takeWhile (· != '/') ++ (t ++ u) := by
        rw [List.takeWhile_append_dropWhile, ← List.append_assoc, ht, hu]
      exact List.append_cancel_left h1
    cases t with
    | nil => simp at ht; rw [ht]
    | cons x t =>
      exfalso
      have := List.head?_dropWhile_not (· != '/') path
      rw [hdw] at this
      simp at this
      apply hs
      rw [← ht, ← this]
      simp

/-- C2. Whenever `s3ParsePath` succeeds, which it does on every input without a
newline, the bucket is the longest prefix of the input that contains no `/`, and
the directory is the rest of the input with all leading and trailing `/` removed:
the input is `bucket ++ l ++ directory ++ r` with `l` and `r` made of `/` only, and
the directory neither starts nor ends with `/`. -/
theorem s3ParsePath_spec (path : Str) :
    ('\n' ∉ path → (s3ParsePath path).2.2 = none) ∧
    ∀ bucket directory : Str, s3ParsePath path = (bucket, directory, none) →
      bucket <+: path ∧ '/' ∉ bucket ∧
      (∀ p : Str, p <+: path → '/' ∉ p → p.length ≤ bucket.length) ∧
      directory = Trim (path.drop bucket.length) '/' ∧
      (∃ l r : Str, path = bucket ++ (l ++ directory ++ r) ∧
        (∀ x ∈ l, x = '/') ∧ (∀ x ∈ r, x = '/')) ∧
      directory.head? ≠ some '/' ∧ directory.getLast? ≠ some '/' := by
  constructor
  · intro hn
    rw [s3ParsePath_eq, if_neg]
    intro h
    exact hn ((List.dropWhile_suffix _).subset h)
  · intro bucket directory h
    rw [s3ParsePath_eq] at h
    split at h
    · simp at h
    · simp only [Prod.mk.injEq, and_true] at h
      obtain ⟨hb, hd⟩ := h
      obtain ⟨l, r, h1, h2, h3, h4, h5⟩ := Trim_spec (path.dropWhile (· != '/')) '/'
      subst hb
      refine ⟨List.takeWhile_prefix _, ?_, ?_, ?_, ?_, ?_, ?_⟩
      · intro hm
        simpa using List.mem_takeWhile_imp hm
      · exact fun p hp hs => takeWhile_longest path p hp hs
      · rw [drop_length_takeWhile]; exact hd.symm
      · refine ⟨l, r, ?_, h2, h3⟩
        rw [← hd, ← h1, List.takeWhile_append_dropWhile]
      · rw [← hd]; exact h4
      · rw [← hd]; exact h5

/-- C2, at the remote `bucket//a/b/`: bucket `bucket`, directory `a/b`. -/
theorem s3ParsePath_spec_witness :
    "bucket".toList <+: "bucket//a/b/".toList ∧ '/' ∉ "bucket".toList ∧
      (∀ p : Str, p <+: "bucket//a/b/".toList → '/' ∉ p → p.length ≤ "bucket".toList.length) ∧
      "a/b".toList = Trim ("bucket//a/b/".toList.drop "bucket".toList.length) '/' ∧
      (∃ l r : Str, "bucket//a/b/".toList = "bucket".toList ++ (l ++ "a/b".toList ++ r) ∧
        (∀ x ∈ l, x = '/') ∧ (∀ x ∈ r, x = '/')) ∧
      "a/b".toList.head? ≠ some '/' ∧ "a/b".toList.getLast? ≠ some '/' :=
  (s3ParsePath_spec "bucket//a/b/".toList).2 "bucket".toList "a/b".toList (by decide)

/-- C3, as stated, fails: `s3ParsePath` returns an error on the non-empty input
`b/` followed by a newline. -/
theorem s3ParsePath_error_on_nonempty :
    ¬ (∀ path : Str, (s3ParsePath path).2.2 ≠ none → path = []) := by
  intro h
  have := h "b/\n".toList (by decide)
  exact absurd this (by decide)

/-- C3, amended. `s3ParsePath` returns an error exactly when a newline occurs at
or after the first `/` of the input; so every input without a newline is parsed
without error, the empty input included. -/
theorem s3ParsePath_error_iff (path : Str) :
    ((s3ParsePath path).2.2 ≠ none ↔ '\n' ∈ path.dropWhile (· != '/')) ∧
    ((s3ParsePath path).2.2 ≠ none → '\n' ∈ path) ∧
    s3ParsePath [] = ([], [], none) := by
  have key : (s3ParsePath path).2.2 ≠ none ↔ '\n' ∈ path.dropWhile (· != '/') := by
    rw [s3ParsePath_eq]
    split
    · next h => simp [h]
    · next h => simp [h]
  refine ⟨key, ?_, by decide⟩
  intro h
  exact (List.dropWhile_suffix _).subset (key.mp h)

/-- C3, amended, at the input `b/` followed by a newline: it is rejected. -/
theorem s3ParsePath_error_iff_witness :
    '\n' ∈ "b/\n".toList :=
  (s3ParsePath_error_iff "b/\n".toList).2.1 (by decide)

/-! ## Construction -/

/-- C4. Whenever `NewFs` succeeds, with the probe of the prefix failing or
succeeding, the root of the constructed `Fs` is empty or ends with `/`. -/
theorem NewFs_root {σ : Type} (cfg : ConfigFile) (c : Client σ) (w w1 : World σ)
    (name root : Str) (r : NewFsResult)
    (h : NewFs cfg c w name root = (.ok r, w1)) :
    r.fs.root = [] ∨ r.fs.root.getLast? = some '/' := by
  unfold NewFs at h
  split at h
  · simp at h
  · next bucket directory _ =>
    split at h
    · simp at h
    · next conn _ =>
      simp only [] at h
      split at h
      · split at h
        · simp only [Prod.mk.injEq, Except.ok.injEq] at h
          obtain ⟨h, _⟩ := h
          subst h
          simp only [NewFsResult.fs]
          split
          · exact Or.inl rfl
          · exact Or.inr (by simp)
        · simp only [Prod.mk.injEq, Except.ok.injEq] at h
          obtain ⟨h, _⟩ := h
          subst h
          exact Or.inr (by simp [NewFsResult.fs])
      · next hroot =>
        simp only [Prod.mk.injEq, Except.ok.injEq] at h
        obtain ⟨h, _⟩ := h
        subst h
        left
        simpa [NewFsResult.fs] using hroot

/-- C4, at the remote `bucket/a/b` with no object stored under `a/b`: the root is `a/b/`. -/
theorem NewFs_root_witness :
    (NewFsResult.plain (Fs.mk "s3".toList defaultConnection "bucket".toList
        [] "a/b/".toList [])).fs.root = [] ∨
    (NewFsResult.plain (Fs.mk "s3".toList defaultConnection "bucket".toList
        [] "a/b/".toList [])).fs.root.getLast?
      = some '/' :=
  NewFs_root emptyConfig (headProvider [] emptyHead) (World.start () 0)
    { World.start () 0 with headLog := [{ Bucket := "bucket".toList, Key := "a/b".toList }] }
    "s3".toList "bucket/a/b".toList _ rfl

/-! ## Listing engine: pagination -/

theorem keyLt_irrefl (a : Str) : keyLt a a = false := by
  induction a with
  | nil => rfl
  | cons x s ih => simp [keyLt, ih]

theorem keyLt_asymm (a b : Str) (h : keyLt a b = true) : keyLt b a = false := by
  induction a generalizing b with
  | nil =>
    cases b with
    | nil => rfl
    | cons y t => rfl
  | cons x s ih =>
    cases b with
    | nil => simp [keyLt] at h
    | cons y t =>
      simp only [keyLt] at h ⊢
      by_cases hxy : x < y
      · have h1 : ¬ y < x := not_lt_of_lt hxy
        have h2 : y ≠ x := ne_of_gt hxy
        simp [h1, h2]
      · simp only [hxy, if_false] at h
        by_cases he : x = y
        · subst he
          simp only [if_true] at h
          simp [ih t h]
        · simp [he] at h

theorem filter_keyLt_after (done rem : List Str) (k : Str)
    (h : (done ++ k :: rem).Pairwise (fun a b => keyLt a b = true)) :
    (done ++ k :: rem).filter (fun x => keyLt k x) = rem := by
  rw [List.pairwise_append] at h
  obtain ⟨_, h2, h3⟩ := h
  rw [List.pairwise_cons] at h2
  obtain ⟨h4, _⟩ := h2
  rw [List.filter_append, List.filter_cons]
  have e1 : done.filter (fun x => keyLt k x) = [] := by
    rw [List.filter_eq_nil_iff]
    intro x hx
    have := h3 x hx k (List.mem_cons_self _ _)
    simp [keyLt_asymm _ _ this]
  have e2 : rem.filter (fun x => keyLt k x) = rem := by
    rw [List.filter_eq_self]
    intro x hx
    exact h4 x hx
  simp [e1, e2, keyLt_irrefl]

theorem keysAfter_getLast (done rem : List Str)
    (h : (done ++ rem).Pairwise (fun a b => keyLt a b = true)) :
    keysAfter done.getLast? (done ++ rem) = rem := by
  rcases List.eq_nil_or_concat done with hd | ⟨d, k, hd⟩
  · subst hd; rfl
  · subst hd
    have hl : (d.concat k).getLast? = some k := by simp
    have : d.concat k ++ rem = d ++ k :: rem := by simp
    rw [this] at h
    rw [hl, this]
    simp only [keysAfter]
    exact filter_keyLt_after d rem k h


theorem pageCalls_flat (root : Str) (page : List Str) (cp : List CommonPrefix)
    (t : Option Bool) (m : Option Str) (h : ∀ k ∈ page, root <+: k) :
    pageCalls root false
        { CommonPrefixes := cp, Contents := page.map storedObject, IsTruncated := t,
          NextMarker := m }
      = page.map fun k => (k.drop root.length, storedObject k) := by
  simp only [pageCalls, Bool.false_eq_true, if_false]
  induction page with
  | nil => rfl
  | cons k page ih =>
    have hk : hasPrefix k root = true := by
      simp only [hasPrefix]
      exact List.isPrefixOf_iff_prefix.mpr (h k (List.mem_cons_self _ _))
    rw [List.map_cons, List.filterMap_cons]
    simp only [storedObject, Option.getD_some, hk] at ih ⊢
    simp only [Bool.true_eq_false, if_false]
    rw [ih (fun k hk => h k (List.mem_cons_of_mem _ hk))]
    rfl

theorem nextMarker_paged (page : List Str) (trunc snm : Bool) :
    nextMarker
        { CommonPrefixes := [], Contents := page.map storedObject, IsTruncated := some trunc,
          NextMarker := if snm = true ∧ trunc = true then page.getLast? else none }
      = if trunc = false then Next.stop
        else match page.getLast? with
          | none => Next.indexOutOfRange
          | some k => Next.marker (some k) := by
  cases trunc with
  | false => simp [nextMarker]
  | true =>
    rcases List.eq_nil_or_concat page with hp | ⟨d, k, hp⟩
    · subst hp
      simp [nextMarker]
    · have hl : page.getLast? = some k := by subst hp; simp
      have hc : (page.map storedObject).getLast? = some (storedObject k) := by
        rw [List.getLast?_map, hl]; rfl
      cases snm with
      | false => simp [nextMarker, hl, hc, storedObject]
      | true =>
        by_cases hk : k = []
        · simp [nextMarker, hl, hc, storedObject, hk]
        · simp [nextMarker, hl, hc, storedObject, hk]

/-- One turn of the loop of `Fs.list` whose page request succeeds. -/
theorem listLoop_step_ok {σ : Type} (c : Client σ) (f : Fs) (directories : Bool) (fuel : Nat)
    (marker : Option Str) (w w1 : World σ) (calls : List (Str × S3Object))
    (resp : ListObjectsOutput)
    (h : listObjects c w
        { Bucket := f.bucket, Delimiter := if directories then ['/'] else [],
          Prefix := f.root, MaxKeys := listChunkSize, Marker := marker } = (.ok resp, w1)) :
    listLoop c f directories (fuel + 1) marker w calls =
      match nextMarker resp with
      | Next.stop =>
        { calls := calls ++ pageCalls f.root directories resp, world := w1,
          outcome := Outcome.returned }
      | Next.indexOutOfRange =>
        { calls := calls ++ pageCalls f.root directories resp, world := w1,
          outcome := Outcome.panicked }
      | Next.marker m =>
        listLoop c f directories fuel m w1 (calls ++ pageCalls f.root directories resp) := by
  rw [listLoop, h]

/-- One turn of the loop of `Fs.list` whose page request fails. -/
theorem listLoop_step_error {σ : Type} (c : Client σ) (f : Fs) (directories : Bool) (fuel : Nat)
    (marker : Option Str) (w w1 : World σ) (calls : List (Str × S3Object)) (err : Error)
    (h : listObjects c w
        { Bucket := f.bucket, Delimiter := if directories then ['/'] else [],
          Prefix := f.root, MaxKeys := listChunkSize, Marker := marker } = (.error err, w1)) :
    listLoop c f directories (fuel + 1) marker w calls =
      { calls := calls, world := statsError w1, outcome := Outcome.returned } := by
  simp only [listLoop, h]

theorem listObjects_paged (keys : List Str) (pageSize : Nat) (snm : Bool) (w : World Unit)
    (req : ListObjectsInput) :
    listObjects (pagedProvider keys pageSize snm) w req =
      (.ok { CommonPrefixes := [],
             Contents := ((keysAfter req.Marker keys).take
               (min pageSize req.MaxKeys.toNat)).map storedObject,
             IsTruncated := some (decide (((keysAfter req.Marker keys).take
               (min pageSize req.MaxKeys.toNat)).length < (keysAfter req.Marker keys).length)),
             NextMarker := if snm = true ∧ decide (((keysAfter req.Marker keys).take
                 (min pageSize req.MaxKeys.toNat)).length < (keysAfter req.Marker keys).length) = true
               then ((keysAfter req.Marker keys).take (min pageSize req.MaxKeys.toNat)).getLast?
               else none },
        { w with listLog := w.listLog ++ [req] }) := by
  simp [listObjects, pagedProvider]

theorem listLoop_paged (keys : List Str) (pageSize : Nat) (snm : Bool) (f : Fs)
    (hsorted : keys.Pairwise (fun a b => keyLt a b = true))
    (hroot : ∀ k ∈ keys, f.root <+: k) (hpage : 0 < pageSize) :
    ∀ (fuel : Nat) (done rem : List Str) (w : World Unit) (calls : List (Str × S3Object)),
      keys = done ++ rem → rem.length < fuel →
      (listLoop (pagedProvider keys pageSize snm) f false fuel done.getLast? w calls).outcome
          = Outcome.returned ∧
      (listLoop (pagedProvider keys pageSize snm) f false fuel done.getLast? w calls).calls
          = calls ++ rem.map (fun k => (k.drop f.root.length, storedObject k)) ∧
      (listLoop (pagedProvider keys pageSize snm) f false fuel done.getLast? w calls).world.statsErrors
          = w.statsErrors := by
  intro fuel
  induction fuel with
  | zero => intro done rem w calls _ h; exact absurd h (Nat.not_lt_zero _)
  | succ fuel ih =>
    intro done rem w calls hk hf
    have hafter : keysAfter done.getLast? keys = rem := by
      rw [hk]; exact keysAfter_getLast done rem (hk ▸ hsorted)
    have hp : 0 < min pageSize listChunkSize.toNat := by
      have : listChunkSize.toNat = 1024 := by decide
      omega
    have hstep := listObjects_paged keys pageSize snm w
      { Bucket := f.bucket, Delimiter := if false = true then ['/'] else [],
        Prefix := f.root, MaxKeys := listChunkSize, Marker := done.getLast? }
    simp only [hafter] at hstep
    generalize hpdef : min pageSize listChunkSize.toNat = p at hp hstep
    generalize hw1 : ({ w with listLog := w.listLog ++
      [{ Bucket := f.bucket, Delimiter := if false = true then ['/'] else [],
         Prefix := f.root, MaxKeys := listChunkSize, Marker := done.getLast? }] } : World Unit)
      = w1 at hstep
    have hw1s : w1.statsErrors = w.statsErrors := by rw [← hw1]
    rw [listLoop_step_ok _ _ _ _ _ _ _ _ _ hstep]
    have hpc := pageCalls_flat f.root (rem.take p) []
      (some (decide ((rem.take p).length < rem.length)))
      (if snm = true ∧ decide ((rem.take p).length < rem.length) = true
            then (rem.take p).getLast? else none)
      (by
        intro k hkm
        apply hroot
        rw [hk]
        exact List.mem_append_right _ (List.mem_of_mem_take hkm))
    have hnm := nextMarker_paged (rem.take p) (decide ((rem.take p).length < rem.length)) snm
    rw [hpc, hnm]
    by_cases hlt : (rem.take p).length < rem.length
    · have hne : rem.take p ≠ [] := by
        intro h0
        have h1 : (rem.take p).length = 0 := by rw [h0]; rfl
        rw [List.length_take] at h1
        omega
      obtain ⟨d, k, hdk⟩ : ∃ d k, rem.take p = d ++ [k] := by
        rcases List.eq_nil_or_concat (rem.take p) with h0 | ⟨d, k, h1⟩
        · exact absurd h0 hne
        · exact ⟨d, k, by simpa using h1⟩
      have hl : (rem.take p).getLast? = some k := by rw [hdk]; simp
      have hl2 : (done ++ rem.take p).getLast? = some k := by
        rw [hdk, ← List.append_assoc]; simp
      simp only [hlt, decide_True, Bool.true_eq_false, if_false, hl]
      have hk2 : keys = (done ++ rem.take p) ++ rem.drop p := by
        rw [List.append_assoc, List.take_append_drop]; exact hk
      have hf2 : (rem.drop p).length < fuel := by
        rw [List.length_drop]; omega
      have := ih (done ++ rem.take p) (rem.drop p) w1
        (calls ++ (rem.take p).map fun k => (k.drop f.root.length, storedObject k)) hk2 hf2
      rw [hl2] at this
      obtain ⟨h1, h2, h3⟩ := this
      refine ⟨h1, ?_, h3.trans hw1s⟩
      rw [h2, List.append_assoc, ← List.map_append, List.take_append_drop]
    · have hall : rem.take p = rem := by
        apply List.take_of_length_le
        rw [List.length_take] at hlt
        omega
      simp only [hall, lt_irrefl, decide_False, if_true]
      exact ⟨trivial, trivial, hw1s⟩

theorem drop_root_injective (root a b : Str) (ha : root <+: a) (hb : root <+: b)
    (h : a.drop root.length = b.drop root.length) : a = b := by
  rw [← List.prefix_iff_eq_append.mp ha, ← List.prefix_iff_eq_append.mp hb, h]

/-- C6. Against a provider that stores distinct keys under the root in ascending
order and answers each list request with the next keys strictly after the
marker, at most a positive page size of them, flagging truncation exactly when
more keys remain, flat-mode `Fs.list` (given room for one page request more than
there are keys) returns normally, counts no error, and calls its callback exactly
once per stored key, in order, with the key stripped of the root as relative
path; the relative paths are pairwise distinct and as many as the keys. -/
theorem list_pagination_complete (keys : List Str) (pageSize : Nat) (sendNextMarker : Bool)
    (f : Fs) (w : World Unit) (fuel : Nat)
    (hsorted : keys.Pairwise (fun a b => keyLt a b = true))
    (hroot : ∀ k ∈ keys, f.root <+: k)
    (hpage : 0 < pageSize) (hfuel : keys.length < fuel) :
    (f.list (pagedProvider keys pageSize sendNextMarker) w false fuel).outcome
      = Outcome.returned ∧
    (f.list (pagedProvider keys pageSize sendNextMarker) w false fuel).calls
      = keys.map (fun k => (k.drop f.root.length, storedObject k)) ∧
    (f.list (pagedProvider keys pageSize sendNextMarker) w false fuel).world.statsErrors
      = w.statsErrors ∧
    ((f.list (pagedProvider keys pageSize sendNextMarker) w false fuel).calls.map
      (fun call => call.1)).Nodup ∧
    (f.list (pagedProvider keys pageSize sendNextMarker) w false fuel).calls.length
      = keys.length ∧
    ∀ k ∈ keys, f.root ++ k.drop f.root.length = k := by
  have h := listLoop_paged keys pageSize sendNextMarker f hsorted hroot hpage fuel [] keys w []
    rfl hfuel
  simp only [List.getLast?_nil, List.nil_append] at h
  obtain ⟨h1, h2, h3⟩ := h
  have hnodup : keys.Nodup := by
    refine hsorted.imp ?_
    intro a b hab he
    rw [he, keyLt_irrefl] at hab
    cases hab
  unfold Fs.list
  refine ⟨h1, h2, h3, ?_, ?_, ?_⟩
  · rw [h2, List.map_map]
    refine List.Nodup.map_on ?_ hnodup
    intro a ha b hb hab
    exact drop_root_injective f.root a b (hroot a ha) (hroot b hb) hab
  · rw [h2, List.length_map]
  · intro k hk
    exact List.prefix_iff_eq_append.mp (hroot k hk)

/-- C6, for the keys `a/b`, `a/c`, `a/d` under the root `a/` and pages of two keys. -/
theorem list_pagination_complete_witness :
    (Fs.list (pagedProvider ["a/b".toList, "a/c".toList, "a/d".toList] 2 false)
        (World.start () 0) (Fs.mk [] defaultConnection "bucket".toList [] "a/".toList [])
        false 4).outcome = Outcome.returned ∧
    (Fs.list (pagedProvider ["a/b".toList, "a/c".toList, "a/d".toList] 2 false)
        (World.start () 0) (Fs.mk [] defaultConnection "bucket".toList [] "a/".toList [])
        false 4).calls
      = [("b".toList, storedObject "a/b".toList), ("c".toList, storedObject "a/c".toList),
         ("d".toList, storedObject "a/d".toList)] :=
  have h := list_pagination_complete ["a/b".toList, "a/c".toList, "a/d".toList] 2 false
    (Fs.mk [] defaultConnection "bucket".toList [] "a/".toList []) (World.start () 0) 4
    (by decide) (by decide) (by decide) (by decide)
  ⟨h.1, h.2.1⟩

/-! ## Listing engine: page errors -/

theorem listObjects_scripted (w : World Script) (req : ListObjectsInput)
    (r : Except Error ListObjectsOutput) (rest : List (Except Error ListObjectsOutput))
    (h : w.provider.lists = r :: rest) :
    ∃ w1 : World Script, listObjects scriptedProvider w req = (r, w1) ∧
      w1.provider.lists = rest ∧ w1.provider.heads = w.provider.heads ∧
      w1.listLog = w.listLog ++ [req] ∧ w1.headLog = w.headLog ∧
      w1.statsErrors = w.statsErrors :=
  ⟨{ w with provider := { w.provider with lists := rest }, listLog := w.listLog ++ [req] },
    by simp [listObjects, scriptedProvider, h], rfl, rfl, rfl, rfl, rfl⟩

theorem listLoop_scripted_error (f : Fs) (directories : Bool) (err : Error)
    (post : List (Except Error ListObjectsOutput)) :
    ∀ (pre : List ListObjectsOutput) (fuel : Nat) (marker : Option Str) (w : World Script)
      (calls : List (Str × S3Object)),
      w.provider.lists = pre.map Except.ok ++ Except.error err :: post →
      (∀ r ∈ pre, ∃ m, nextMarker r = Next.marker m) →
      pre.length < fuel →
      (listLoop scriptedProvider f directories fuel marker w calls).outcome = Outcome.returned ∧
      (listLoop scriptedProvider f directories fuel marker w calls).calls
        = calls ++ (pre.map (pageCalls f.root directories)).flatten ∧
      (listLoop scriptedProvider f directories fuel marker w calls).world.statsErrors
        = w.statsErrors + 1 ∧
      (listLoop scriptedProvider f directories fuel marker w calls).world.listLog.length
        = w.listLog.length + pre.length + 1 ∧
      (listLoop scriptedProvider f directories fuel marker w calls).world.provider.lists = post ∧
      (listLoop scriptedProvider f directories fuel marker w calls).world.provider.heads
        = w.provider.heads ∧
      (listLoop scriptedProvider f directories fuel marker w calls).world.headLog = w.headLog := by
  intro pre
  induction pre with
  | nil =>
    intro fuel marker w calls hs _ hf
    obtain ⟨fuel, rfl⟩ : ∃ n, fuel = n + 1 := ⟨fuel - 1, by simp at hf; omega⟩
    simp only [List.map_nil, List.nil_append] at hs
    obtain ⟨w1, hw, a1, a2, a3, a4, a5⟩ := listObjects_scripted w
      { Bucket := f.bucket, Delimiter := if directories then ['/'] else [],
        Prefix := f.root, MaxKeys := listChunkSize, Marker := marker } _ _ hs
    rw [listLoop_step_error _ _ _ _ _ _ _ _ _ hw]
    simp [statsError, a1, a2, a3, a4, a5]
  | cons r pre ih =>
    intro fuel marker w calls hs hc hf
    obtain ⟨fuel, rfl⟩ : ∃ n, fuel = n + 1 := ⟨fuel - 1, by simp at hf; omega⟩
    simp only [List.map_cons, List.cons_append] at hs
    obtain ⟨w1, hw, a1, a2, a3, a4, a5⟩ := listObjects_scripted w
      { Bucket := f.bucket, Delimiter := if directories then ['/'] else [],
        Prefix := f.root, MaxKeys := listChunkSize, Marker := marker } _ _ hs
    rw [listLoop_step_ok _ _ _ _ _ _ _ _ _ hw]
    obtain ⟨m, hm⟩ := hc r (List.mem_cons_self _ _)
    rw [hm]
    simp only []
    have := ih fuel m w1 (calls ++ pageCalls f.root directories r) a1
      (fun r hr => hc r (List.mem_cons_of_mem _ hr)) (by simp at hf; omega)
    obtain ⟨h1, h2, h3, h4, h5, h6, h7⟩ := this
    refine ⟨h1, ?_, h3.trans (by rw [a5]), ?_, h5, h6.trans a2, h7.trans a4⟩
    · rw [h2]; simp
    · rw [h4, a3]; simp; omega

/-- C7. When the first `k-1` page requests succeed with pages that make `Fs.list`
go on and the `k`-th request fails, `Fs.list` (in either mode, given room for `k`
requests) returns normally, having called its callback for exactly the entries of
the first `k-1` pages, in order, having sent exactly `k` requests (the rest of the
provider's script is untouched) and having counted exactly one error. -/
theorem list_stops_at_first_error (f : Fs) (directories : Bool) (w : World Script)
    (pre : List ListObjectsOutput) (err : Error)
    (post : List (Except Error ListObjectsOutput)) (fuel : Nat)
    (hscript : w.provider.lists = pre.map Except.ok ++ Except.error err :: post)
    (hcont : ∀ r ∈ pre, ∃ m, nextMarker r = Next.marker m)
    (hfuel : pre.length < fuel) :
    (f.list scriptedProvider w directories fuel).outcome = Outcome.returned ∧
    (f.list scriptedProvider w directories fuel).calls
      = (pre.map (pageCalls f.root directories)).flatten ∧
    (f.list scriptedProvider w directories fuel).world.statsErrors = w.statsErrors + 1 ∧
    (f.list scriptedProvider w directories fuel).world.listLog.length
      = w.listLog.length + pre.length + 1 ∧
    (f.list scriptedProvider w directories fuel).world.provider.lists = post := by
  have h := listLoop_scripted_error f directories err post pre fuel none w [] hscript hcont hfuel
  unfold Fs.list
  obtain ⟨h1, h2, h3, h4, h5, _, _⟩ := h
  exact ⟨h1, by simpa using h2, h3, h4, h5⟩

/-- C7, for a script of one truncated page holding the key `a/b`, then a failure,
then one more page that is never asked for. -/
theorem list_stops_at_first_error_witness :
    (Fs.list scriptedProvider
        (World.start (Script.mk []
          [.ok (ListObjectsOutput.mk [] [storedObject "a/b".toList] (some true) none),
           .error (Error.other []),
           .ok (ListObjectsOutput.mk [] [storedObject "a/c".toList] (some false) none)]) 0)
        (Fs.mk [] defaultConnection "bucket".toList [] "a/".toList []) false 2).calls
      = [("b".toList, storedObject "a/b".toList)] ∧
    (Fs.list scriptedProvider
        (World.start (Script.mk []
          [.ok (ListObjectsOutput.mk [] [storedObject "a/b".toList] (some true) none),
           .error (Error.other []),
           .ok (ListObjectsOutput.mk [] [storedObject "a/c".toList] (some false) none)]) 0)
        (Fs.mk [] defaultConnection "bucket".toList [] "a/".toList []) false 2).world.statsErrors
      = 1 :=
  have h := list_stops_at_first_error
    (Fs.mk [] defaultConnection "bucket".toList [] "a/".toList []) false
    (World.start (Script.mk []
      [.ok (ListObjectsOutput.mk [] [storedObject "a/b".toList] (some true) none),
       .error (Error.other []),
       .ok (ListObjectsOutput.mk [] [storedObject "a/c".toList] (some false) none)]) 0)
    [ListObjectsOutput.mk [] [storedObject "a/b".toList] (some true) none]
    (Error.other [])
    [.ok (ListObjectsOutput.mk [] [storedObject "a/c".toList] (some false) none)]
    2 rfl
    (by
      intro r hr
      rw [List.mem_singleton] at hr
      subst hr
      exact ⟨some "a/b".toList, rfl⟩)
    (by decide)
  ⟨h.2.1, h.2.2.1⟩

/-! ## Listing engine: directory mode -/

theorem hasSuffix_slash_iff (s : Str) : hasSuffix s ['/'] = true ↔ s.getLast? = some '/' := by
  unfold hasSuffix
  rw [List.isSuffixOf_iff_suffix]
  constructor
  · rintro ⟨t, rfl⟩; simp
  · intro h
    rcases List.eq_nil_or_concat s with h0 | ⟨t, c, h1⟩
    · subst h0; simp at h
    · subst h1
      simp at h
      subst h
      exact ⟨t, by simp⟩

theorem take_pred_append_slash (s : Str) (h : s.getLast? = some '/') :
    s.take (s.length - 1) ++ ['/'] = s := by
  rcases List.eq_nil_or_concat s with h0 | ⟨t, c, h1⟩
  · subst h0; simp at h
  · subst h1
    simp at h
    subst h
    simp

/-- How a directory entry relates to the common prefix it comes from. -/
theorem dirOfCall_of_commonPrefix (root p : Str) (hp : hasPrefix p root = true) :
    let rest := p.drop root.length
    let name := if hasSuffix rest ['/'] then rest.take (rest.length - 1) else rest
    (p = root ++ name ++ ['/'] ∨ (p = root ++ name ∧ name.getLast? ≠ some '/')) ∧
    (p.getLast? = some '/' → p ≠ root → root ++ name ++ ['/'] = p) := by
  intro rest name
  have hpre : root ++ rest = p := by
    unfold hasPrefix at hp
    exact List.prefix_iff_eq_append.mp (List.isPrefixOf_iff_prefix.mp hp)
  by_cases hs : hasSuffix rest ['/'] = true
  · have hn : name = rest.take (rest.length - 1) := by simp [name, hs]
    have h1 : root ++ name ++ ['/'] = p := by
      rw [hn, List.append_assoc, take_pred_append_slash rest ((hasSuffix_slash_iff rest).mp hs)]
      exact hpre
    exact ⟨Or.inl h1.symm, fun _ _ => h1⟩
  · have hn : name = rest := by simp [name, hs]
    have hl : rest.getLast? ≠ some '/' := fun h => hs ((hasSuffix_slash_iff rest).mpr h)
    refine ⟨Or.inr ⟨by rw [hn]; exact hpre.symm, by rw [hn]; exact hl⟩, ?_⟩
    intro hpl hne
    exfalso
    by_cases hr : rest = []
    · rw [hr, List.append_nil] at hpre
      exact hne hpre.symm
    · rw [← hpre, List.getLast?_append_of_ne_nil _ hr] at hpl
      exact hl hpl

theorem pageCalls_dirs (root : Str) (resp : ListObjectsOutput) :
    List.Forall₂
      (fun (p : Str) (d : Dir) => d.When = 0 ∧ d.Bytes = 0 ∧ d.Count = 0 ∧
        (p = root ++ d.Name ++ ['/'] ∨ (p = root ++ d.Name ∧ d.Name.getLast? ≠ some '/')) ∧
        (p.getLast? = some '/' → p ≠ root → root ++ d.Name ++ ['/'] = p))
      ((resp.CommonPrefixes.filterMap fun cp => cp.Prefix).filter fun p => hasPrefix p root)
      ((pageCalls root true resp).map dirOfCall) := by
  simp only [pageCalls, if_true]
  generalize resp.CommonPrefixes = cps
  induction cps with
  | nil => exact List.Forall₂.nil
  | cons cp cps ih =>
    cases hcp : cp.Prefix with
    | none =>
      rw [List.filterMap_cons_none hcp, List.filterMap_cons_none (by simp [hcp])]
      exact ih
    | some p =>
      rw [List.filterMap_cons_some hcp]
      by_cases hp : hasPrefix p root = true
      · rw [List.filter_cons, if_pos hp]
        rw [List.filterMap_cons_some (b := (if hasSuffix (p.drop root.length) ['/']
            then (p.drop root.length).take ((p.drop root.length).length - 1)
            else p.drop root.length,
          { Key := some (if hasSuffix (p.drop root.length) ['/']
              then (p.drop root.length).take ((p.drop root.length).length - 1)
              else p.drop root.length), ETag := none, Size := none, LastModified := none }))
          (by simp [hcp, hp])]
        rw [List.map_cons]
        refine List.Forall₂.cons ?_ ih
        have := dirOfCall_of_commonPrefix root p hp
        exact ⟨rfl, rfl, rfl, this.1, this.2⟩
      · rw [List.filter_cons, if_neg hp, List.filterMap_cons_none (by simp [hcp, hp])]
        exact ih

theorem listLoop_scripted_stop (f : Fs) (directories : Bool) (last : ListObjectsOutput)
    (post : List (Except Error ListObjectsOutput)) (hstop : nextMarker last = Next.stop) :
    ∀ (pre : List ListObjectsOutput) (fuel : Nat) (marker : Option Str) (w : World Script)
      (calls : List (Str × S3Object)),
      w.provider.lists = pre.map Except.ok ++ Except.ok last :: post →
      (∀ r ∈ pre, ∃ m, nextMarker r = Next.marker m) →
      pre.length < fuel →
      (listLoop scriptedProvider f directories fuel marker w calls).outcome = Outcome.returned ∧
      (listLoop scriptedProvider f directories fuel marker w calls).calls
        = calls ++ ((pre ++ [last]).map (pageCalls f.root directories)).flatten ∧
      (listLoop scriptedProvider f directories fuel marker w calls).world.statsErrors
        = w.statsErrors := by
  intro pre
  induction pre with
  | nil =>
    intro fuel marker w calls hs _ hf
    obtain ⟨fuel, rfl⟩ : ∃ n, fuel = n + 1 := ⟨fuel - 1, by simp at hf; omega⟩
    simp only [List.map_nil, List.nil_append] at hs
    obtain ⟨w1, hw, a1, a2, a3, a4, a5⟩ := listObjects_scripted w
      { Bucket := f.bucket, Delimiter := if directories then ['/'] else [],
        Prefix := f.root, MaxKeys := listChunkSize, Marker := marker } _ _ hs
    rw [listLoop_step_ok _ _ _ _ _ _ _ _ _ hw, hstop]
    simp [a5]
  | cons r pre ih =>
    intro fuel marker w calls hs hc hf
    obtain ⟨fuel, rfl⟩ : ∃ n, fuel = n + 1 := ⟨fuel - 1, by simp at hf; omega⟩
    simp only [List.map_cons, List.cons_append] at hs
    obtain ⟨w1, hw, a1, a2, a3, a4, a5⟩ := listObjects_scripted w
      { Bucket := f.bucket, Delimiter := if directories then ['/'] else [],
        Prefix := f.root, MaxKeys := listChunkSize, Marker := marker } _ _ hs
    rw [listLoop_step_ok _ _ _ _ _ _ _ _ _ hw]
    obtain ⟨m, hm⟩ := hc r (List.mem_cons_self _ _)
    rw [hm]
    simp only []
    have := ih fuel m w1 (calls ++ pageCalls f.root directories r) a1
      (fun r hr => hc r (List.mem_cons_of_mem _ hr)) (by simp at hf; omega)
    obtain ⟨h1, h2, h3⟩ := this
    refine ⟨h1, ?_, h3.trans a5⟩
    rw [h2]; simp

theorem forall₂_flatten_map {α β γ : Type} (R : α → β → Prop) (f : γ → List α)
    (g : γ → List β) (l : List γ) (h : ∀ x ∈ l, List.Forall₂ R (f x) (g x)) :
    List.Forall₂ R (l.map f).flatten (l.map g).flatten := by
  induction l with
  | nil => exact List.Forall₂.nil
  | cons x l ih =>
    simp only [List.map_cons, List.flatten_cons]
    exact List.rel_append (h x (List.mem_cons_self _ _))
      (ih fun y hy => h y (List.mem_cons_of_mem _ hy))

/-- C8, as stated, fails for a common prefix equal to a non-empty root: with root
`a/` and common prefix `a/` (which starts with the root and ends with `/`),
`Fs.ListDir` sends one entry with the empty name, and root, name and `/` make
`a//`, not the common prefix. -/
theorem ListDir_prefix_equal_to_root :
    hasPrefix "a/".toList "a/".toList = true ∧
    "a/".toList.getLast? = some '/' ∧
    (Fs.ListDir scriptedProvider
        (World.start (Script.mk []
          [.ok (ListObjectsOutput.mk [CommonPrefix.mk (some "a/".toList)] [] (some false) none)])
          0)
        (Fs.mk [] defaultConnection "bucket".toList [] "a/".toList []) 1).1
      = [Dir.mk [] 0 0 0] ∧
    "a/".toList ++ (Dir.mk [] 0 0 0).Name ++ ['/'] ≠ "a/".toList := by
  refine ⟨by decide, by decide, by decide, by decide⟩

/-- C8, amended. In directory mode, over any run of successful pages, the entries
`Fs.ListDir` sends correspond one to one, in order, to the non-nil common prefixes
that start with the root (nil common prefixes, other common prefixes and the
pages' contents give no entry). The entry for `p` has byte count 0 and count 0, and
its name is `p` without the root in front and without one trailing `/`: `p` is
root, name and `/`, or `p` is root and name and the name does not end with `/`.
Root, name and `/` make `p` whenever `p` ends with `/` and `p` is not the root itself. -/
theorem ListDir_entries (f : Fs) (w : World Script) (pre : List ListObjectsOutput)
    (last : ListObjectsOutput) (post : List (Except Error ListObjectsOutput)) (fuel : Nat)
    (hbucket : f.bucket ≠ [])
    (hscript : w.provider.lists = pre.map Except.ok ++ Except.ok last :: post)
    (hcont : ∀ r ∈ pre, ∃ m, nextMarker r = Next.marker m)
    (hstop : nextMarker last = Next.stop)
    (hfuel : pre.length < fuel) :
    (f.ListDir scriptedProvider w fuel).2.2 = Outcome.returned ∧
    List.Forall₂
      (fun (p : Str) (d : Dir) => d.When = 0 ∧ d.Bytes = 0 ∧ d.Count = 0 ∧
        (p = f.root ++ d.Name ++ ['/'] ∨
          (p = f.root ++ d.Name ∧ d.Name.getLast? ≠ some '/')) ∧
        (p.getLast? = some '/' → p ≠ f.root → f.root ++ d.Name ++ ['/'] = p))
      ((pre ++ [last]).map fun resp =>
        (resp.CommonPrefixes.filterMap fun cp => cp.Prefix).filter
          fun p => hasPrefix p f.root).flatten
      (f.ListDir scriptedProvider w fuel).1 := by
  obtain ⟨h1, h2, _⟩ := listLoop_scripted_stop f true last post hstop pre fuel none w []
    hscript hcont hfuel
  simp only [Fs.ListDir, if_neg hbucket, Fs.list]
  refine ⟨h1, ?_⟩
  rw [h2, List.nil_append, List.map_flatten, List.map_map]
  exact forall₂_flatten_map _ _ _ _ fun resp _ => pageCalls_dirs f.root resp

/-- C8, amended, for root `""` and one page with the common prefix `a/` (from the
keys `a/b.txt` and `a/c.txt`): exactly one entry, named `a`. -/
theorem ListDir_entries_witness :
    List.Forall₂
      (fun (p : Str) (d : Dir) => d.When = 0 ∧ d.Bytes = 0 ∧ d.Count = 0 ∧
        (p = [] ++ d.Name ++ ['/'] ∨ (p = [] ++ d.Name ∧ d.Name.getLast? ≠ some '/')) ∧
        (p.getLast? = some '/' → p ≠ [] → [] ++ d.Name ++ ['/'] = p))
      ["a/".toList] [Dir.mk "a".toList 0 0 0] :=
  (ListDir_entries (Fs.mk [] defaultConnection "bucket".toList [] [] [])
    (World.start (Script.mk []
      [.ok (ListObjectsOutput.mk [CommonPrefix.mk (some "a/".toList)] [] (some false) none)]) 0)
    [] (ListObjectsOutput.mk [CommonPrefix.mk (some "a/".toList)] [] (some false) none) [] 1
    (by decide) rfl (by intro r hr; cases hr) rfl (by decide)).2

/-! ## Objects: metadata probe -/

/-- The fuel of `cleanLoop` is only a bound on the number of steps: any two
amounts that cover the text still to be read give the same result. -/
theorem cleanLoop_fuel (rooted : Bool) :
    ∀ (n m : Nat) (rest out : Str) (dotdot : Nat), rest.length ≤ n → rest.length ≤ m →
      cleanLoop rooted n rest out dotdot = cleanLoop rooted m rest out dotdot := by
  intro n
  induction n with
  | zero =>
    intro m rest out dotdot hn _
    have : rest = [] := List.length_eq_zero.mp (Nat.le_zero.mp hn)
    subst this
    cases m <;> rfl
  | succ n ih =>
    intro m rest out dotdot hn hm
    cases rest with
    | nil => cases m <;> rfl
    | cons c r =>
      obtain ⟨m, rfl⟩ : ∃ k, m = k + 1 := ⟨m - 1, by simp at hm; omega⟩
      simp only [List.length_cons, Nat.add_le_add_iff_right] at hn hm
      have htail : r.tail.length ≤ r.length := by simp
      have hdrop : c ≠ '/' → ((c :: r).dropWhile (· != '/')).length ≤ r.length := by
        intro hc
        have : (c != '/') = true := by simpa using hc
        rw [List.dropWhile_cons, if_pos this]
        exact (List.dropWhile_sublist _).length_le
      simp only [cleanLoop]
      split
      · exact ih m r out dotdot hn hm
      · next hc =>
        split
        · exact ih m r out dotdot hn hm
        · split
          · split
            · exact ih m _ _ _ (le_trans htail hn) (le_trans htail hm)
            · split
              · exact ih m _ _ _ (le_trans htail hn) (le_trans htail hm)
              · exact ih m _ _ _ (le_trans htail hn) (le_trans htail hm)
          · exact ih m _ _ _ (le_trans (hdrop hc) hn) (le_trans (hdrop hc) hm)

theorem takeWhile_elem (e rest : Str) (he : '/' ∉ e)
    (hrest : rest = [] ∨ rest.head? = some '/') :
    (e ++ rest).takeWhile (· != '/') = e ∧ (e ++ rest).dropWhile (· != '/') = rest := by
  induction e with
  | nil =>
    rcases hrest with h | h
    · subst h; exact ⟨rfl, rfl⟩
    · cases rest with
      | nil => exact ⟨rfl, rfl⟩
      | cons x t =>
        simp only [List.head?_cons, Option.some.injEq] at h
        subst h
        simp [List.takeWhile, List.dropWhile]
  | cons c e ih =>
    have hc : (c != '/') = true := by
      have : c ≠ '/' := fun h => he (h ▸ List.mem_cons_self _ _)
      simpa using this
    have := ih (fun h => he (List.mem_cons_of_mem _ h))
    simp only [List.cons_append, List.takeWhile_cons, List.dropWhile_cons, hc, if_true]
    exact ⟨by rw [this.1], this.2⟩

theorem cleanLoop_elem (fuel : Nat) (e rest out : Str)
    (h1 : e ≠ []) (h2 : '/' ∉ e) (h3 : e ≠ ['.']) (h4 : e ≠ ['.', '.']) :
    cleanLoop false (fuel + 2) (e ++ '/' :: rest) out 0 =
      cleanLoop false fuel rest ((if out.length ≠ 0 then out ++ ['/'] else out) ++ e) 0 := by
  obtain ⟨htw, hdw⟩ := takeWhile_elem e ('/' :: rest) h2 (Or.inr rfl)
  cases e with
  | nil => exact absurd rfl h1
  | cons c r =>
    have hc : c ≠ '/' := fun h => h2 (h ▸ List.mem_cons_self _ _)
    have hr : '/' ∉ r := fun h => h2 (List.mem_cons_of_mem _ h)
    have hdot : ¬ (c = '.' ∧ (r ++ '/' :: rest = [] ∨ (r ++ '/' :: rest).head? = some '/')) := by
      rintro ⟨hc1, hh⟩
      rcases hh with hh | hh
      · simp at hh
      · cases r with
        | nil => exact h3 (by rw [hc1])
        | cons x t =>
          simp only [List.cons_append, List.head?_cons, Option.some.injEq] at hh
          exact hr (hh ▸ List.mem_cons_self _ _)
    have hdotdot : ¬ (c = '.' ∧ (r ++ '/' :: rest).head? = some '.' ∧
        ((r ++ '/' :: rest).tail = [] ∨ (r ++ '/' :: rest).tail.head? = some '/')) := by
      rintro ⟨hc1, hh1, hh2⟩
      cases r with
      | nil => simp at hh1
      | cons x t =>
        simp only [List.cons_append, List.head?_cons, Option.some.injEq] at hh1
        simp only [List.cons_append, List.tail_cons] at hh2
        rcases hh2 with hh2 | hh2
        · simp at hh2
        · cases t with
          | nil => exact h4 (by rw [hc1, hh1])
          | cons y u =>
            simp only [List.cons_append, List.head?_cons, Option.some.injEq] at hh2
            exact hr (List.mem_cons_of_mem _ (hh2 ▸ List.mem_cons_self _ _))
    have hstep : cleanLoop false (fuel + 2) (c :: (r ++ '/' :: rest)) out 0 =
        cleanLoop false (fuel + 1) ((c :: (r ++ '/' :: rest)).dropWhile (· != '/'))
          ((if out.length ≠ 0 then out ++ ['/'] else out)
            ++ (c :: (r ++ '/' :: rest)).takeWhile (· != '/')) 0 := by
      rw [cleanLoop]
      simp only [if_neg hc, if_neg hdot, if_neg hdotdot]
      simp
    rw [List.cons_append, hstep]
    rw [List.cons_append] at htw hdw
    rw [htw, hdw, cleanLoop]
    simp

theorem cleanLoop_nil (rooted : Bool) (n : Nat) (out : Str) (dotdot : Nat) :
    cleanLoop rooted n [] out dotdot = out := by
  cases n <;> rfl

theorem cleanLoop_elems (es : List Str)
    (hes : ∀ e ∈ es, e ≠ [] ∧ '/' ∉ e ∧ e ≠ ['.'] ∧ e ≠ ['.', '.']) :
    ∀ (out : Str) (n : Nat), out ≠ [] → (es.map (· ++ ['/'])).flatten.length ≤ n →
      cleanLoop false n (es.map (· ++ ['/'])).flatten out 0
        = out ++ (es.map (['/'] ++ ·)).flatten := by
  induction es with
  | nil =>
    intro out n _ _
    simp [cleanLoop_nil]
  | cons e es ih =>
    intro out n hout hn
    obtain ⟨h1, h2, h3, h4⟩ := hes e (List.mem_cons_self _ _)
    have hrest : ((e :: es).map (· ++ ['/'])).flatten
        = e ++ '/' :: (es.map (· ++ ['/'])).flatten := by simp
    rw [hrest] at hn ⊢
    rw [cleanLoop_fuel false n ((e ++ '/' :: (es.map (· ++ ['/'])).flatten).length + 2) _ _ _ hn
      (Nat.le_add_right _ _)]
    rw [cleanLoop_elem _ e _ out h1 h2 h3 h4]
    have hlen : out.length ≠ 0 := fun h => hout (List.length_eq_zero.mp h)
    rw [if_pos hlen]
    rw [ih (fun x hx => hes x (List.mem_cons_of_mem _ hx)) _ _ (by simp) (by simp; omega)]
    simp

theorem flatten_slash_shift (e : Str) (es : List Str) :
    e ++ (es.map (['/'] ++ ·)).flatten ++ ['/'] = ((e :: es).map (· ++ ['/'])).flatten := by
  induction es generalizing e with
  | nil => simp
  | cons x es ih =>
    have := ih x
    simp only [List.map_cons, List.flatten_cons, List.append_assoc] at this ⊢
    rw [this]

/-- Applying `path.Clean` to a directory part `e1/e2/.../ek/` whose elements are non-empty
and none of them `.` or `..` only drops the final slash. -/
theorem Clean_of_clean_dir (e : Str) (es : List Str)
    (hes : ∀ x ∈ e :: es, x ≠ [] ∧ '/' ∉ x ∧ x ≠ ['.'] ∧ x ≠ ['.', '.']) :
    path.Clean ((e :: es).map (· ++ ['/'])).flatten ≠ ['.'] ∧
    path.Clean ((e :: es).map (· ++ ['/'])).flatten ++ ['/']
      = ((e :: es).map (· ++ ['/'])).flatten := by
  obtain ⟨h1, h2, h3, h4⟩ := hes e (List.mem_cons_self _ _)
  have hrest : ((e :: es).map (· ++ ['/'])).flatten
      = e ++ '/' :: (es.map (· ++ ['/'])).flatten := by simp
  obtain ⟨c, r, hcr⟩ : ∃ c r, e = c :: r := by
    cases e with
    | nil => exact absurd rfl h1
    | cons c r => exact ⟨c, r, rfl⟩
  have hc : c ≠ '/' := fun h => h2 (by rw [hcr, h]; exact List.mem_cons_self _ _)
  have hloop : cleanLoop false (e ++ '/' :: (es.map (· ++ ['/'])).flatten).length
      (e ++ '/' :: (es.map (· ++ ['/'])).flatten) [] 0
      = e ++ (es.map (['/'] ++ ·)).flatten := by
    rw [cleanLoop_fuel false _ ((e ++ '/' :: (es.map (· ++ ['/'])).flatten).length + 2) _ _ _
      (Nat.le_refl _) (Nat.le_add_right _ _)]
    rw [cleanLoop_elem _ e _ [] h1 h2 h3 h4]
    simp only [List.length_nil, ne_eq, not_true_eq_false, if_false, List.nil_append]
    exact cleanLoop_elems es (fun x hx => hes x (List.mem_cons_of_mem _ hx)) e _ h1
      (by simp; omega)
  have hclean : path.Clean ((e :: es).map (· ++ ['/'])).flatten
      = e ++ (es.map (['/'] ++ ·)).flatten := by
    rw [hrest]
    unfold path.Clean
    have hne : e ++ '/' :: (es.map (· ++ ['/'])).flatten ≠ [] := by simp
    have hhead : (e ++ '/' :: (es.map (· ++ ['/'])).flatten).head? ≠ some '/' := by
      rw [hcr]; simp [hc]
    simp only [if_neg hne, hhead, decide_False, Bool.false_eq_true, if_false, hloop]
    rw [if_neg]
    rw [hcr]; simp
  rw [hclean]
  refine ⟨?_, flatten_slash_shift e es⟩
  intro h
  rw [hcr] at h h3
  simp only [List.cons_append, List.cons.injEq] at h
  have : r = [] := (List.append_eq_nil.mp h.2).1
  exact h3 (by rw [h.1, this])

theorem LastIndex_of_not_mem (s : Str) (c : Char) (h : c ∉ s) : LastIndex s c = -1 := by
  simp [LastIndex, h]

theorem LastIndex_append (s t : Str) (c : Char) (h : c ∉ t) :
    LastIndex (s ++ c :: t) c = s.length := by
  have hmem : c ∈ s ++ c :: t := by simp
  have hidx : (s ++ c :: t).reverse.indexOf c = t.length := by
    rw [List.reverse_append, List.reverse_cons, List.append_assoc,
      List.indexOf_append_of_not_mem (by simpa using h)]
    simp
  simp only [LastIndex, if_pos hmem, hidx, List.length_append, List.length_cons]
  push_cast
  omega

theorem trimRightByte_of_getLast (s : Str) (c : Char) (h : s.getLast? ≠ some c) :
    trimRightByte s c = s := by
  obtain ⟨r, h1, h2, _⟩ := trimRightByte_spec s c
  rcases List.eq_nil_or_concat r with hr | ⟨r', x, hr⟩
  · rw [hr, List.append_nil] at h1
    exact h1.symm
  · exfalso
    apply h
    have hx : x = c := h2 x (by rw [hr]; simp)
    rw [h1, hr, hx]
    simp

theorem parent_nil_or_slash (es : List Str) :
    (es.map (· ++ ['/'])).flatten = [] ∨
      ∃ q, (es.map (· ++ ['/'])).flatten = q ++ ['/'] := by
  rcases List.eq_nil_or_concat es with h | ⟨es', x, h⟩
  · left; rw [h]; rfl
  · right
    refine ⟨(es'.map (· ++ ['/'])).flatten ++ x, ?_⟩
    rw [h]; simp

/-- For a prefix `e1/.../ek/name` whose elements are non-empty and, before the
name, none of them `.` or `..`, the single-object branch of `NewFs` splits at the
last `/`: `path.Base` is the name and the new root is everything before it. -/
theorem single_object_view_of_clean_prefix (es : List Str) (name : Str)
    (hes : ∀ x ∈ es, x ≠ [] ∧ '/' ∉ x ∧ x ≠ ['.'] ∧ x ≠ ['.', '.'])
    (hname : name ≠ [] ∧ '/' ∉ name) :
    path.Base ((es.map (· ++ ['/'])).flatten ++ name) = name ∧
    (if path.Dir ((es.map (· ++ ['/'])).flatten ++ name) = ['.'] then []
      else path.Dir ((es.map (· ++ ['/'])).flatten ++ name) ++ ['/'])
      = (es.map (· ++ ['/'])).flatten := by
  obtain ⟨hn1, hn2⟩ := hname
  have hd : (es.map (· ++ ['/'])).flatten ++ name ≠ [] := by simp [hn1]
  have hlast : ((es.map (· ++ ['/'])).flatten ++ name).getLast? ≠ some '/' := by
    rw [List.getLast?_append_of_ne_nil _ hn1]
    intro h
    exact hn2 (List.mem_of_getLast?_eq_some h)
  have htrim := trimRightByte_of_getLast _ '/' hlast
  rcases parent_nil_or_slash es with hp | ⟨q, hp⟩
  · have hidx : LastIndex ((es.map (· ++ ['/'])).flatten ++ name) '/' = -1 := by
      rw [hp]; exact LastIndex_of_not_mem _ _ hn2
    constructor
    · simp only [path.Base, if_neg hd, htrim, hidx]
      rw [hp] at *
      simp [hn1]
    · simp only [path.Dir, path.Split, hidx]
      have h0 : ((-1 : Int) + 1).toNat = 0 := rfl
      rw [h0, List.take_zero]
      have h1 : path.Clean [] = ['.'] := rfl
      rw [h1, if_pos rfl, hp]
  · have hidx : LastIndex ((es.map (· ++ ['/'])).flatten ++ name) '/' = q.length := by
      rw [hp, List.append_assoc]; exact LastIndex_append q name '/' hn2
    have htake : ((es.map (· ++ ['/'])).flatten ++ name).take (q.length + 1)
        = (es.map (· ++ ['/'])).flatten := by
      rw [hp]
      have : q.length + 1 = (q ++ ['/']).length := by simp
      rw [this, List.take_left]
    have hdrop : ((es.map (· ++ ['/'])).flatten ++ name).drop (q.length + 1) = name := by
      rw [hp]
      have : q.length + 1 = (q ++ ['/']).length := by simp
      rw [this, List.drop_left]
    have hnat : ((q.length : Int) + 1).toNat = q.length + 1 := by omega
    constructor
    · simp only [path.Base, if_neg hd, htrim, hidx, hnat, hdrop]
      simp [hn1]
    · simp only [path.Dir, path.Split, hidx, hnat, htake]
      cases es with
      | nil => simp at hp
      | cons e es =>
        obtain ⟨h1, h2⟩ := Clean_of_clean_dir e es hes
        rw [if_neg h1, h2]

/-! ## Bucket lifecycle -/

/-- The request `Fs.Mkdir` sends and what it makes of the answer. -/
theorem Mkdir_eq {σ : Type} (c : Client σ) (w : World σ) (f : Fs) :
    (f.Mkdir c w).1 =
      match (c.CreateBucket w.provider
          { Bucket := f.bucket, ACL := f.perm,
            LocationConstraint :=
              if f.locationConstraint ≠ [] then some f.locationConstraint else none }).1 with
      | some (Error.aws code message) =>
        if code = "BucketAlreadyOwnedByYou".toList then none
        else some (Error.aws code message)
      | err => err := by
  unfold Fs.Mkdir
  simp only []
  split
  · split <;> rfl
  · rfl

/-- C11. `Fs.Mkdir` returns success exactly when the create-bucket request
succeeded or failed with a provider error whose code is `BucketAlreadyOwnedByYou`;
every other error of the request (a provider error with another code, or an error
that is not a provider error) is returned unchanged. -/
theorem Mkdir_spec {σ : Type} (c : Client σ) (w : World σ) (f : Fs) :
    ((f.Mkdir c w).1 = none ↔
      (c.CreateBucket w.provider
          { Bucket := f.bucket, ACL := f.perm,
            LocationConstraint :=
              if f.locationConstraint ≠ [] then some f.locationConstraint else none }).1 = none ∨
      ∃ message : Str,
        (c.CreateBucket w.provider
          { Bucket := f.bucket, ACL := f.perm,
            LocationConstraint :=
              if f.locationConstraint ≠ [] then some f.locationConstraint else none }).1
          = some (Error.aws "BucketAlreadyOwnedByYou".toList message)) ∧
    (∀ err : Error,
      (c.CreateBucket w.provider
          { Bucket := f.bucket, ACL := f.perm,
            LocationConstraint :=
              if f.locationConstraint ≠ [] then some f.locationConstraint else none }).1
        = some err →
      (∀ message : Str, err ≠ Error.aws "BucketAlreadyOwnedByYou".toList message) →
      (f.Mkdir c w).1 = some err) := by
  rw [Mkdir_eq]
  generalize (c.CreateBucket w.provider
      { Bucket := f.bucket, ACL := f.perm,
        LocationConstraint :=
          if f.locationConstraint ≠ [] then some f.locationConstraint else none }).1 = r
  constructor
  · cases r with
    | none => simp
    | some e =>
      cases e with
      | aws code message =>
        by_cases hc : code = "BucketAlreadyOwnedByYou".toList
        · subst hc; simp
        · simp [hc]
      | parse p => simp
      | plain m => simp
      | other m => simp
  · intro err hr hne
    subst hr
    cases err with
    | aws code message =>
      have hc : code ≠ "BucketAlreadyOwnedByYou".toList := by
        intro h
        exact hne message (by rw [h])
      show (if code = "BucketAlreadyOwnedByYou".toList then none
        else some (Error.aws code message)) = some (Error.aws code message)
      rw [if_neg hc]
    | parse p => rfl
    | plain m => rfl
    | other m => rfl

/-- C11, for a bucket the caller already owns (success) and for a refused
request (the error is handed on). -/
theorem Mkdir_spec_witness :
    (Fs.Mkdir (bucketProvider (some (Error.aws "BucketAlreadyOwnedByYou".toList [])))
        (World.start () 0)
        (Fs.mk [] defaultConnection "bucket".toList [] [] [])).1 = none ∧
    (Fs.Mkdir (bucketProvider (some (Error.aws "AccessDenied".toList [])))
        (World.start () 0)
        (Fs.mk [] defaultConnection "bucket".toList [] [] [])).1
      = some (Error.aws "AccessDenied".toList []) :=
  ⟨(Mkdir_spec (bucketProvider (some (Error.aws "BucketAlreadyOwnedByYou".toList [])))
      (World.start () 0) (Fs.mk [] defaultConnection "bucket".toList [] [] [])).1.mpr
      (Or.inr ⟨[], rfl⟩),
   (Mkdir_spec (bucketProvider (some (Error.aws "AccessDenied".toList [])))
      (World.start () 0) (Fs.mk [] defaultConnection "bucket".toList [] [] [])).2
      (Error.aws "AccessDenied".toList []) rfl
      (by
        intro message h
        injection h with h1 _
        exact absurd h1 (by decide))⟩

/-! ## Connection builder -/

/-- C12. With `a` the configured access key and `s` the configured secret key,
`s3Connection` fails exactly when exactly one of the two is empty; when both are
empty it succeeds with anonymous credentials, and when both are non-empty it
succeeds with static credentials made of exactly `a` and `s`. -/
theorem s3Connection_credentials (cfg : ConfigFile) (name : Str) :
    ((∃ err : Error, s3Connection cfg name = .error err) ↔
      (cfg name "access_key_id".toList = [] ∧ cfg name "secret_access_key".toList ≠ []) ∨
      (cfg name "access_key_id".toList ≠ [] ∧ cfg name "secret_access_key".toList = [])) ∧
    (cfg name "access_key_id".toList = [] → cfg name "secret_access_key".toList = [] →
      ∃ conn : Connection, s3Connection cfg name = .ok conn ∧
        conn.auth = Credentials.anonymous) ∧
    (cfg name "access_key_id".toList ≠ [] → cfg name "secret_access_key".toList ≠ [] →
      ∃ conn : Connection, s3Connection cfg name = .ok conn ∧
        conn.auth = Credentials.static (cfg name "access_key_id".toList)
          (cfg name "secret_access_key".toList) []) := by
  unfold s3Connection
  generalize cfg name "access_key_id".toList = a
  generalize cfg name "secret_access_key".toList = s
  by_cases ha : a = [] <;> by_cases hs : s = []
  · simp [ha, hs]
  · simp [ha, hs]
  · simp [ha, hs]
  · simp [ha, hs]

/-- C12, for the keys `AK` and `SK` (static credentials), for no keys at all
(anonymous access) and for an access key without a secret key (an error). -/
theorem s3Connection_credentials_witness :
    (∃ conn : Connection,
      s3Connection (keyConfig "AK".toList "SK".toList) "remote".toList = .ok conn ∧
        conn.auth = Credentials.static "AK".toList "SK".toList []) ∧
    (∃ conn : Connection, s3Connection (keyConfig [] []) "remote".toList = .ok conn ∧
        conn.auth = Credentials.anonymous) ∧
    (∃ err : Error, s3Connection (keyConfig "AK".toList []) "remote".toList = .error err) :=
  ⟨(s3Connection_credentials (keyConfig "AK".toList "SK".toList) "remote".toList).2.2
      (by decide) (by decide),
   (s3Connection_credentials (keyConfig [] []) "remote".toList).2.1 (by decide) (by decide),
   (s3Connection_credentials (keyConfig "AK".toList []) "remote".toList).1.mpr
      (Or.inr ⟨by decide, by decide⟩)⟩

/-! ## Listing engine: the next marker -/

/-- The next marker after a truncated page: the `NextMarker` when it is present
and non-empty, otherwise the key of the last item of `Contents` when there is
one, and an index out of range when `Contents` is empty. -/
theorem nextMarker_truncated (resp : ListObjectsOutput) (ht : resp.IsTruncated = some true) :
    (∀ m : Str, resp.NextMarker = some m → m ≠ [] →
      nextMarker resp = Next.marker (some m)) ∧
    (∀ last : S3Object, resp.NextMarker = none ∨ resp.NextMarker = some [] →
      resp.Contents.getLast? = some last → nextMarker resp = Next.marker last.Key) ∧
    (resp.NextMarker = none ∨ resp.NextMarker = some [] → resp.Contents = [] →
      nextMarker resp = Next.indexOutOfRange) := by
  refine ⟨?_, ?_, ?_⟩
  · intro m hm hne
    simp [nextMarker, ht, hm, hne]
  · intro last hn hl
    simp only [nextMarker, ht, Option.getD_some, Bool.true_eq_false, if_false, if_pos hn, hl]
  · intro hn hc
    simp only [nextMarker, ht, Option.getD_some, Bool.true_eq_false, if_false, if_pos hn, hc,
      List.getLast?_nil]

/-- A turn of the loop of `Fs.list`, in either mode, whose page is truncated,
carries no usable `NextMarker` and has empty `Contents` ends in a panic. -/
theorem listLoop_panics {σ : Type} (c : Client σ) (f : Fs) (directories : Bool) (fuel : Nat)
    (marker : Option Str) (w w1 : World σ) (calls : List (Str × S3Object))
    (resp : ListObjectsOutput)
    (h : listObjects c w
        { Bucket := f.bucket, Delimiter := if directories then ['/'] else [],
          Prefix := f.root, MaxKeys := listChunkSize, Marker := marker } = (.ok resp, w1))
    (ht : resp.IsTruncated = some true)
    (hn : resp.NextMarker = none ∨ resp.NextMarker = some [])
    (hc : resp.Contents = []) :
    (listLoop c f directories (fuel + 1) marker w calls).outcome = Outcome.panicked := by
  rw [listLoop_step_ok c f directories fuel marker w w1 calls resp h,
    (nextMarker_truncated resp ht).2.2 hn hc]

/-- C13, at a truncated directory-mode page that carries the common prefix `a/`,
no contents and no `NextMarker`: the fallback branch is reached with an empty
`Contents` list, and `Fs.list` indexes out of range, in directory mode (after
handing on the entry `a`) and in flat mode alike; so `Fs.ListDir` panics. -/
theorem list_index_out_of_range :
    nextMarker (ListObjectsOutput.mk [CommonPrefix.mk (some "a/".toList)] [] (some true) none)
      = Next.indexOutOfRange ∧
    (Fs.list scriptedProvider
        (World.start (Script.mk []
          [.ok (ListObjectsOutput.mk [CommonPrefix.mk (some "a/".toList)] [] (some true) none)])
          0)
        (Fs.mk [] defaultConnection "bucket".toList [] [] []) true 3).outcome
      = Outcome.panicked ∧
    (Fs.list scriptedProvider
        (World.start (Script.mk []
          [.ok (ListObjectsOutput.mk [CommonPrefix.mk (some "a/".toList)] [] (some true) none)])
          0)
        (Fs.mk [] defaultConnection "bucket".toList [] [] []) true 3).calls
      = [("a".toList, S3Object.mk (some "a".toList) none none none)] ∧
    (Fs.list scriptedProvider
        (World.start (Script.mk []
          [.ok (ListObjectsOutput.mk [CommonPrefix.mk (some "a/".toList)] [] (some true) none)])
          0)
        (Fs.mk [] defaultConnection "bucket".toList [] [] []) false 3).outcome
      = Outcome.panicked ∧
    (Fs.ListDir scriptedProvider
        (World.start (Script.mk []
          [.ok (ListObjectsOutput.mk [CommonPrefix.mk (some "a/".toList)] [] (some true) none)])
          0)
        (Fs.mk [] defaultConnection "bucket".toList [] [] []) 3).2.2
      = Outcome.panicked := by
  refine ⟨by decide, by decide, by decide, by decide, by decide⟩

/-! ## Construction: the single-object view -/

theorem last_slash_split (d : Str) (h : '/' ∈ d) :
    ∃ s t : Str, d = s ++ '/' :: t ∧ '/' ∉ t := by
  obtain ⟨a, b, hab, hna⟩ := List.eq_append_cons_of_mem (List.mem_reverse.mpr h)
  refine ⟨b.reverse, a.reverse, ?_, by simpa using hna⟩
  have := congrArg List.reverse hab
  simpa using this

/-- For a path that is not empty and does not end with `/`, `path.Base` is what
follows the last `/` and `path.Split` cuts right after that `/`. -/
theorem Base_eq_split (d : Str) (hd : d ≠ []) (hl : d.getLast? ≠ some '/') :
    path.Base d = (path.Split d).2 ∧ (path.Split d).1 ++ path.Base d = d ∧
    path.Base d ≠ [] ∧ '/' ∉ path.Base d ∧
    ((path.Split d).1 = [] ∨ (path.Split d).1.getLast? = some '/') := by
  have htrim := trimRightByte_of_getLast d '/' hl
  by_cases hm : '/' ∈ d
  · obtain ⟨s, t, hst, ht⟩ := last_slash_split d hm
    have hidx : LastIndex d '/' = s.length := by rw [hst]; exact LastIndex_append s t '/' ht
    have hnat : ((s.length : Int) + 1).toNat = s.length + 1 := by omega
    have hlen : s.length + 1 = (s ++ ['/']).length := by simp
    have hd2 : d = (s ++ ['/']) ++ t := by rw [hst]; simp
    have htake : d.take (s.length + 1) = s ++ ['/'] := by
      rw [hlen]; conv_lhs => rw [hd2]
      exact List.take_left _ _
    have hdrop : d.drop (s.length + 1) = t := by
      rw [hlen]; conv_lhs => rw [hd2]
      exact List.drop_left _ _
    have htne : t ≠ [] := by
      intro h0
      apply hl
      rw [hst, h0]; simp
    have hbase : path.Base d = t := by
      simp only [path.Base, if_neg hd, htrim, hidx, hnat, hdrop]
      simp [htne]
    have hsplit : path.Split d = (s ++ ['/'], t) := by
      simp only [path.Split, hidx, hnat, htake, hdrop]
    rw [hbase, hsplit]
    exact ⟨rfl, hd2.symm, htne, ht, Or.inr (by simp)⟩
  · have hidx : LastIndex d '/' = -1 := LastIndex_of_not_mem d '/' hm
    have h0 : ((-1 : Int) + 1).toNat = 0 := rfl
    have hbase : path.Base d = d := by
      simp only [path.Base, if_neg hd, htrim, hidx]
      simp [hd]
    have hsplit : path.Split d = ([], d) := by
      simp only [path.Split, hidx, h0, List.take_zero, List.drop_zero]
    rw [hbase, hsplit]
    exact ⟨rfl, rfl, hd, hm, Or.inl rfl⟩

/-- The probe changes neither the relative path nor the `Fs` of an object. -/
theorem readMetaData_remote {σ : Type} (c : Client σ) (w : World σ) (o : Object) :
    (o.readMetaData c w).2.1.remote = o.remote ∧ (o.readMetaData c w).2.1.fs = o.fs := by
  unfold Object.readMetaData
  split
  · exact ⟨rfl, rfl⟩
  · simp only []
    generalize headObject c w { Bucket := o.fs.bucket, Key := o.fs.root ++ o.remote } = r
    obtain ⟨e, w1⟩ := r
    cases e with
    | error err => exact ⟨rfl, rfl⟩
    | ok resp => exact ⟨rfl, rfl⟩

/-- An object built by `Fs.NewFsObject` belongs to the `Fs` and carries the
relative path it was asked for. -/
theorem NewFsObject_remote {σ : Type} (c : Client σ) (w : World σ) (f : Fs) (remote : Str)
    (o : Object) (h : (f.NewFsObject c w remote).1 = some o) :
    o.remote = remote ∧ o.fs = f := by
  have hr := readMetaData_remote c w
    { fs := f, remote := remote, etag := [], bytes := 0, lastModified := 0, meta := none }
  simp only [Fs.NewFsObject, Fs.newFsObjectWithInfo] at h
  generalize Object.readMetaData c w
    { fs := f, remote := remote, etag := [], bytes := 0, lastModified := 0, meta := none }
    = r at h hr
  obtain ⟨e, o1, w1⟩ := r
  cases e with
  | some e => simp at h
  | none =>
    simp only [Option.some.injEq] at h
    subst h
    exact hr

/-- C5, as stated, fails for a prefix with an empty element: for the remote
`bucket/a//b` the probe of the prefix `a//b` goes out for the cleaned path
`/bucket/a/b` and succeeds when an object is stored there; the view is then built
with the object name `b` and the root `a/`, not with `a//`, the part of the prefix
up to and including its last `/`, and root followed by name is `a/b`, not the
prefix. (With only `/bucket/a//b` stored the probe fails and the root is `a//b/`.) -/
theorem NewFs_prefix_with_empty_element :
    s3ParsePath "bucket/a//b".toList = ("bucket".toList, "a//b".toList, none) ∧
    (NewFs emptyConfig
        (cleaningProvider ["/bucket/a/b".toList]
          (HeadObjectOutput.mk (some 3) (some "e".toList) (some 5) (some [])))
        (World.start () 0) "s3".toList "bucket/a//b".toList).1
      = .ok (NewFsResult.limited
          (Fs.mk "s3".toList defaultConnection "bucket".toList [] "a/".toList [])
          (some (Object.mk
            (Fs.mk "s3".toList defaultConnection "bucket".toList [] "a/".toList [])
            "b".toList "e".toList 3 5 (some [])))) ∧
    (path.Split "a//b".toList).1 = "a//".toList ∧
    "a/".toList ≠ (path.Split "a//b".toList).1 ∧
    "a/".toList ++ "b".toList ≠ "a//b".toList ∧
    (NewFs emptyConfig
        (cleaningProvider ["/bucket/a//b".toList]
          (HeadObjectOutput.mk (some 3) (some "e".toList) (some 5) (some [])))
        (World.start () 0) "s3".toList "bucket/a//b".toList).1
      = .ok (NewFsResult.plain
          (Fs.mk "s3".toList defaultConnection "bucket".toList [] "a//b/".toList [])) := by
  refine ⟨by decide, rfl, by decide, by decide, by decide, rfl⟩

/-- C5, amended. When the probe of a non-empty resolved prefix `d` succeeds,
`NewFs` returns the view limited to the object that `NewFsObject` builds for the
relative path `path.Base d`, which is the part of `d` after its last `/` (all of
`d` without a `/`), on an `Fs` whose root is the cleaned parent `path.Dir d`
followed by `/` (empty when that parent is `.`). When the part of `d` up to and
including its last `/` is made of elements that are non-empty and not `.` or
`..`, that part is the root, and root followed by the relative path is `d`. -/
theorem NewFs_single_object {σ : Type} (cfg : ConfigFile) (c : Client σ) (w w1 : World σ)
    (name root bucket d : Str) (conn : Connection) (resp : HeadObjectOutput)
    (hparse : s3ParsePath root = (bucket, d, none))
    (hconn : s3Connection cfg name = .ok conn)
    (hd : d ≠ [])
    (hprobe : headObject c w { Bucket := bucket, Key := d } = (.ok resp, w1)) :
    ∃ f : Fs,
      NewFs cfg c w name root
        = (.ok (NewFsResult.limited f (f.NewFsObject c w1 (path.Base d)).1),
            (f.NewFsObject c w1 (path.Base d)).2) ∧
      f.bucket = bucket ∧
      f.root = (if path.Dir d = ['.'] then [] else path.Dir d ++ ['/']) ∧
      (∀ o : Object, (f.NewFsObject c w1 (path.Base d)).1 = some o →
        o.remote = path.Base d ∧ o.fs = f) ∧
      path.Base d = (path.Split d).2 ∧
      (path.Split d).1 ++ path.Base d = d ∧
      '/' ∉ path.Base d ∧
      ((path.Split d).1 = [] ∨ (path.Split d).1.getLast? = some '/') ∧
      (∀ es : List Str, (path.Split d).1 = (es.map (· ++ ['/'])).flatten →
        (∀ x ∈ es, x ≠ [] ∧ '/' ∉ x ∧ x ≠ ['.'] ∧ x ≠ ['.', '.']) →
        f.root = (path.Split d).1 ∧ f.root ++ path.Base d = d) := by
  have hlast : d.getLast? ≠ some '/' :=
    ((s3ParsePath_spec root).2 bucket d hparse).2.2.2.2.2.2
  obtain ⟨b1, b2, b3, b4, b5⟩ := Base_eq_split d hd hlast
  refine ⟨{ name := name, c := conn, bucket := bucket, perm := [],
            root := if path.Dir d = ['.'] then [] else path.Dir d ++ ['/'],
            locationConstraint := cfg name "location_constraint".toList },
    ?_, rfl, rfl, ?_, b1, b2, b4, b5, ?_⟩
  · unfold NewFs
    rw [hparse]
    simp only [hconn, ne_eq, hd, not_false_eq_true, if_true, hprobe]
  · intro o ho
    exact NewFsObject_remote c w1 _ _ o ho
  · intro es hes hclean
    have h := single_object_view_of_clean_prefix es (path.Base d) hclean ⟨b3, b4⟩
    rw [← hes, b2] at h
    simp only []
    rw [h.2]
    exact ⟨rfl, b2⟩

/-- C5, amended, for the remote `bucket/a/b` with an object stored under `a/b`:
the view is on the bucket `bucket` with the root `a/`, and root followed by the
object name is `a/b`. -/
theorem NewFs_single_object_witness :
    ∃ f : Fs, f.bucket = "bucket".toList ∧ f.root = "a/".toList ∧
      f.root ++ path.Base "a/b".toList = "a/b".toList ∧
      ∃ obj : Option Object,
        (NewFs emptyConfig
            (cleaningProvider ["/bucket/a/b".toList]
              (HeadObjectOutput.mk (some 3) (some "e".toList) (some 5) (some [])))
            (World.start () 0) "s3".toList "bucket/a/b".toList).1
          = .ok (NewFsResult.limited f obj) := by
  obtain ⟨f, h1, h2, _, _, _, _, _, _, h9⟩ := NewFs_single_object emptyConfig
    (cleaningProvider ["/bucket/a/b".toList]
      (HeadObjectOutput.mk (some 3) (some "e".toList) (some 5) (some [])))
    (World.start () 0)
    { World.start () 0 with headLog := [{ Bucket := "bucket".toList, Key := "a/b".toList }] }
    "s3".toList "bucket/a/b".toList "bucket".toList "a/b".toList defaultConnection
    (HeadObjectOutput.mk (some 3) (some "e".toList) (some 5) (some []))
    (by decide) rfl (by decide) rfl
  have h := h9 ["a".toList] (by decide) (by decide)
  exact ⟨f, h2, h.1.trans (by decide), h.2, _, by rw [h1]⟩

end S3
